import Mathlib

/-!
Verification development for the Vulkan-Voxels repository.

This file gives a shallow embedding of the core algorithms of the repository
and proves (or refutes) the properties stated in its specification:

  - the device-memory sub-allocator (src/render/memory.rs):
    pools of chunks, each chunk a list of blocks partitioning its byte range,
    first-fit allocation with alignment padding and block splitting,
    coalescing on free, and power-of-two pool growth;
  - the greedy mesher (src/world/chunk.rs): sweep masks, face visibility,
    greedy quad merging, vertex and index emission;
  - the meshing worker loop (src/threads/meshing.rs): job intake through
    weak references, skip-on-dead-reference behaviour;
  - the world streamer (src/world/world.rs): which chunk grid positions are
    created and destroyed each tick.

Machine integers (u64) are modelled as Nat with explicit reduction mod 2 ^ 64
at the operations where the Rust release build wraps.  Device calls
(vkAllocateMemory, mapping, queue submission) are abstracted: a device memory
handle is a Nat identifier and device allocation is assumed to succeed.
Fallible operations (Rust panics via unwrap or expect) are modelled as Option
with none for the panic case.
-/

namespace Memory

/-- 2 ^ 64, the modulus of u64 arithmetic. -/
def W64 : Nat := 2 ^ 64

/-- Wrapping u64 addition (operands are kept below 2 ^ 64). -/
def add64 (a b : Nat) : Nat := (a + b) % W64

/-- Wrapping u64 subtraction (operands are kept below 2 ^ 64).
This is where the Rust release build wraps on underflow. -/
def sub64 (a b : Nat) : Nat := (a + W64 - b) % W64

/-- src/render/memory.rs: MIN_ALLOC_SIZE = 1024 * 1024 * 16. -/
def MIN_ALLOC_SIZE : Nat := 1024 * 1024 * 16

/-- src/render/memory.rs struct Block.  The vk::DeviceMemory handle is
modelled as a Nat identifier. -/
structure Block where
  memory : Nat
  memory_type_index : Nat
  offset : Nat
  size : Nat
  is_free : Bool
deriving DecidableEq

/-- Block::new - a freshly created block is free. -/
def Block.new (memory memory_type_index offset size : Nat) : Block :=
  ⟨memory, memory_type_index, offset, size, true⟩

/-- src/render/memory.rs struct Chunk (allocator sense).  The persistent host
pointer is not modelled (it never influences the block list). -/
structure Chunk where
  memory : Nat
  blocks : List Block
  size : Nat
deriving DecidableEq

/-- Chunk::new(device, size, memory_type_index, map): one real device
allocation holding a single free block spanning the whole chunk.  Device
allocation success is assumed; the fresh vk::DeviceMemory handle is the
argument memId. -/
def Chunk.new (memId size memory_type_index : Nat) : Chunk :=
  ⟨memId, [Block.new memId memory_type_index 0 size], size⟩

/-- Alignment padding needed in front of offset, as computed inline by
Chunk::alloc: alignment - offset % alignment when offset is misaligned. -/
def padOf (offset align : Nat) : Nat :=
  if offset % align ≠ 0 then align - offset % align else 0

/-- The effective size Chunk::alloc computes for a scanned block:
block.size minus the alignment padding, with u64 wrap on underflow
(block_size -= alignment - block.offset % alignment). -/
def effSize (b : Block) (align : Nat) : Nat :=
  if b.offset % align ≠ 0 then sub64 b.size (align - b.offset % align) else b.size

/-- The scan predicate of Chunk::alloc: a free block whose effective size
(after alignment padding, with wrapping subtraction) is at least the
requested size. -/
def fitsB (b : Block) (size align : Nat) : Bool :=
  b.is_free && decide (size ≤ effSize b align)

/-- Index of the first element satisfying p (the enumerate-and-break scan of
Chunk::alloc, and the position / find calls of Chunk::free and Pool::free). -/
def findIdxO {α : Type} (p : α → Bool) : List α → Option Nat
  | [] => none
  | b :: bs => if p b then some 0 else (findIdxO p bs).map (· + 1)

/-- src/render/memory.rs Chunk::alloc.  Returns the handed-out block and the
updated chunk (the mapped pointer is not modelled).  Mirrors the source:
early return when size > self.size; first-fit scan; then split the chosen
block i by inserting the leftover after-block at i + 1, mutating block i in
place (is_free = false, size = size, offset += before_size) and inserting the
padding before-block at i.  All u64 arithmetic wraps. -/
def Chunk.alloc (c : Chunk) (size align memory_type_index : Nat) :
    Option (Block × Chunk) :=
  if c.size < size then none else
  match findIdxO (fun b => fitsB b size align) c.blocks with
  | none => none
  | some i =>
    let b := c.blocks.getD i (Block.new 0 0 0 0)
    let before_size := padOf b.offset align
    let after_size := sub64 b.size (add64 size before_size)
    let blocks1 :=
      if 0 < after_size then
        c.blocks.insertIdx (i + 1)
          (Block.new c.memory memory_type_index
            (add64 b.offset (add64 size before_size)) after_size)
      else c.blocks
    let return_block : Block :=
      { b with is_free := false, size := size, offset := add64 b.offset before_size }
    let blocks2 := blocks1.set i return_block
    let blocks3 :=
      if 0 < before_size then
        blocks2.insertIdx i
          (Block.new c.memory memory_type_index b.offset before_size)
      else blocks2
    some (return_block, { c with blocks := blocks3 })

/-- src/render/memory.rs Chunk::free.  Finds the first block whose offset
matches (the source unwraps: a missing offset is a panic, modelled as none),
marks it free, merges the next block into it when that one is free, then
merges it into the previous block when that one is free. -/
def Chunk.free (c : Chunk) (blk : Block) : Option Chunk :=
  match findIdxO (fun b => b.offset == blk.offset) c.blocks with
  | none => none
  | some i =>
    let bs1 := c.blocks.set i
      { c.blocks.getD i (Block.new 0 0 0 0) with is_free := true }
    let bs2 :=
      if i + 1 < bs1.length ∧ (bs1.getD (i + 1) (Block.new 0 0 0 0)).is_free then
        (bs1.set i
          { bs1.getD i (Block.new 0 0 0 0) with
            size := add64 (bs1.getD i (Block.new 0 0 0 0)).size
                          (bs1.getD (i + 1) (Block.new 0 0 0 0)).size }).eraseIdx (i + 1)
      else bs1
    let bs3 :=
      if 0 < i ∧ (bs2.getD (i - 1) (Block.new 0 0 0 0)).is_free then
        (bs2.set i
          { bs2.getD i (Block.new 0 0 0 0) with
            offset := (bs2.getD (i - 1) (Block.new 0 0 0 0)).offset,
            size := add64 (bs2.getD i (Block.new 0 0 0 0)).size
                          (bs2.getD (i - 1) (Block.new 0 0 0 0)).size }).eraseIdx (i - 1)
      else bs2
    some { c with blocks := bs3 }

/-- The blocks tile the half-open byte range from s to e: consecutive,
ordered, gap-free, positive sizes. -/
def tilesB : Nat → List Block → Nat → Bool
  | s, [], e => s == e
  | s, b :: bs, e => b.offset == s && b.size != 0 && tilesB (s + b.size) bs e

/-- Chunk invariant: blocks partition the range from 0 to size with no gaps
and no overlaps in offset order; size fits in u64; every block carries the
owning chunk memory handle. -/
def Chunk.WF (c : Chunk) : Prop :=
  tilesB 0 c.blocks c.size = true ∧ c.size < W64 ∧
    ∀ b ∈ c.blocks, b.memory = c.memory

instance (c : Chunk) : Decidable c.WF := by
  unfold Chunk.WF; infer_instance

/-- Total number of free bytes in a block list. -/
def freeBytes (bs : List Block) : Nat :=
  ((bs.filter fun b => b.is_free).map fun b => b.size).sum

/-- Two blocks with intersecting byte ranges. -/
def overlapB (a b : Block) : Bool :=
  decide (a.offset < b.offset + b.size) && decide (b.offset < a.offset + a.size)

/-- Some pair of distinct non-free (live) blocks in the list overlaps. -/
def anyLiveOverlap : List Block → Bool
  | [] => false
  | b :: rest =>
    (rest.any fun x => !b.is_free && !x.is_free && overlapB b x) || anyLiveOverlap rest

/-- The six or-shift steps of the round-up-to-next-power-of-two bit smear
of Pool::alloc (new_size |= new_size >> 1 ... >> 32). -/
def smear6 (x : Nat) : Nat :=
  let n := x ||| (x >>> 1)
  let n := n ||| (n >>> 2)
  let n := n ||| (n >>> 4)
  let n := n ||| (n >>> 8)
  let n := n ||| (n >>> 16)
  n ||| (n >>> 32)

/-- The round-up-to-next-power-of-two computation of Pool::alloc:
new_size -= 1; the bit smear; new_size += 1, with u64 wrap on the
decrement and the increment. -/
def nextPow2u64 (m : Nat) : Nat :=
  add64 (smear6 (sub64 m 1)) 1

/-- The growth-size update of Pool::alloc: round max(requested, old) up to
the next power of two, and double when that equals the old growth size
(the doubling multiplication also wraps in u64). -/
def growStep (old req : Nat) : Nat :=
  let ns := nextPow2u64 (Nat.max req old)
  if old == ns then (ns * 2) % W64 else ns

/-- src/render/memory.rs struct Pool.  The size field is the growth size
(AtomicU64, initialised to MIN_ALLOC_SIZE).  next_mem supplies the fresh
device memory handle a real device would return for the next chunk. -/
structure Pool where
  memory_type_index : Nat
  chunks : List Chunk
  size : Nat
  next_mem : Nat
deriving DecidableEq

/-- Pool::new. -/
def Pool.new (memory_type_index : Nat) : Pool :=
  ⟨memory_type_index, [], MIN_ALLOC_SIZE, 0⟩

/-- The first phase of Pool::alloc: try Chunk::alloc on each existing chunk
in order, returning the block and the chunk list with the one chunk updated. -/
def allocScan (size align memory_type_index : Nat) :
    List Chunk → Option (Block × List Chunk)
  | [] => none
  | c :: cs =>
    match c.alloc size align memory_type_index with
    | some (blk, c2) => some (blk, c2 :: cs)
    | none => (allocScan size align memory_type_index cs).map
        fun p => (p.1, c :: p.2)

/-- src/render/memory.rs Pool::alloc.  Scan existing chunks first; otherwise
grow: update the growth size with growStep, create one new chunk of that
size and allocate from it (the source then expects success - a failing
expect, like a failing device allocation, is modelled as none; note the
source stores the new growth size before creating the chunk).  The growth
lock only serialises concurrent growth and has no sequential effect. -/
def Pool.alloc (p : Pool) (size align : Nat) : Option (Block × Pool) :=
  match allocScan size align p.memory_type_index p.chunks with
  | some (blk, chunks2) => some (blk, { p with chunks := chunks2 })
  | none =>
    let new_size := growStep p.size size
    let c := Chunk.new p.next_mem new_size p.memory_type_index
    match c.alloc size align p.memory_type_index with
    | none => none
    | some (blk, c2) =>
      some (blk, { p with chunks := p.chunks ++ [c2], size := new_size,
                          next_mem := p.next_mem + 1 })

/-- src/render/memory.rs Pool::free: locate the chunk owning the block by
its memory handle (unwrap - modelled as none when absent) and free there. -/
def Pool.free (p : Pool) (blk : Block) : Option Pool :=
  match findIdxO (fun c => c.memory == blk.memory) p.chunks with
  | none => none
  | some j =>
    match (p.chunks.getD j (Chunk.new 0 0 0)).free blk with
    | none => none
    | some c2 => some { p with chunks := p.chunks.set j c2 }

/-- Total free bytes over all chunks of a pool. -/
def freeBytesPool (p : Pool) : Nat :=
  (p.chunks.map fun c => freeBytes c.blocks).sum

/-- Pool invariant: all chunks well formed, memory handles below the fresh
counter and pairwise distinct (so Pool::free finds the right chunk). -/
def Pool.WF (p : Pool) : Prop :=
  (∀ c ∈ p.chunks, c.WF ∧ c.memory < p.next_mem) ∧
    (p.chunks.map fun c => c.memory).Nodup

/-- n is a power of two. -/
def isPow2 (n : Nat) : Prop := ∃ k, n = 2 ^ k

end Memory

namespace Voxel

/-- src/config.rs: CHUNK_SIZE = 16. -/
def CHUNK_SIZE : Nat := 16

/-- src/world/world.rs ChunkPos (x: i32, y: u32, z: i32). -/
structure ChunkPos where
  x : Int
  y : Nat
  z : Int
deriving DecidableEq

/-- src/world/chunk.rs enum Side with its axis encoding:
NORTH = 0 (x+), TOP = 1 (y+), EAST = 2 (z+),
SOUTH = 3 (x-), BOTTOM = 4 (y-), WEST = 5 (z-). -/
inductive Side where
  | NORTH
  | TOP
  | EAST
  | SOUTH
  | BOTTOM
  | WEST
deriving DecidableEq

/-- TryFrom of usize for Side. -/
def sideOfNat : Nat → Option Side
  | 0 => some Side.NORTH
  | 1 => some Side.TOP
  | 2 => some Side.EAST
  | 3 => some Side.SOUTH
  | 4 => some Side.BOTTOM
  | 5 => some Side.WEST
  | _ => none

/-- The voxel grid of a chunk: block id (u16, 0 = empty) at each flat index.
The source stores a fixed array of CHUNK_SIZE cubed cells indexed by
block_pos_to_index; a total function keeps the embedding executable. -/
def Grid : Type := Nat → Nat

/-- src/world/chunk.rs Chunk::block_pos_to_index. -/
def block_pos_to_index (x y z : Nat) : Nat :=
  x * CHUNK_SIZE * CHUNK_SIZE + y * CHUNK_SIZE + z

/-- The neighbour step applied by Chunk::is_face_visible to its input
coordinate before the bounds test. -/
def sideOffset : Side → Int × Int × Int → Int × Int × Int
  | Side.NORTH, (x, y, z) => (x + Int.ofNat 1, y, z)
  | Side.SOUTH, (x, y, z) => (x - Int.ofNat 1, y, z)
  | Side.EAST, (x, y, z) => (x, y, z + Int.ofNat 1)
  | Side.WEST, (x, y, z) => (x, y, z - Int.ofNat 1)
  | Side.TOP, (x, y, z) => (x, y + Int.ofNat 1, z)
  | Side.BOTTOM, (x, y, z) => (x, y - Int.ofNat 1, z)

/-- x is nonnegative (0 <= x on i32). -/
def ge0 (x : Int) : Bool :=
  match x with
  | Int.ofNat _ => true
  | Int.negSucc _ => false

/-- x < b for an i32 coordinate x and a nonnegative bound b. -/
def ltN (x : Int) (b : Nat) : Bool :=
  match x with
  | Int.ofNat a => Nat.blt a b
  | Int.negSucc _ => true

/-- Coordinate triple within chunk bounds on all three axes (the negation of
the x < 0 || x >= CHUNK_SIZE || ... test of is_face_visible), written as one
structural match so that it evaluates quickly. -/
def inBounds3 (p : Int × Int × Int) : Bool :=
  match p with
  | (Int.ofNat a, Int.ofNat b, Int.ofNat c) =>
    Nat.blt a CHUNK_SIZE && Nat.blt b CHUNK_SIZE && Nat.blt c CHUNK_SIZE
  | _ => false

/-- src/world/chunk.rs Chunk::is_face_visible: step to the neighbour on the
given side; out of bounds counts as visible, otherwise visible when the
neighbour block id is 0. -/
def is_face_visible (g : Grid) (x y z : Int) (side : Side) : Bool :=
  let p := sideOffset side (x, y, z)
  if !inBounds3 p then true
  else g (block_pos_to_index p.1.toNat p.2.1.toNat p.2.2.toNat) == 0

/-- Sweep axes u = (axis + 1) % 3 and v = (axis + 2) % 3. -/
def axisU (axis : Nat) : Nat := (axis + 1) % 3

def axisV (axis : Nat) : Nat := (axis + 2) % 3

/-- The coordinate triple with x[axis] = xa, x[u] = ui, x[v] = vi,
for axis in 0..3 as used by Chunk::mesh. -/
def xvec (axis : Nat) (xa : Int) (ui vi : Nat) : Int × Int × Int :=
  match axis with
  | 0 => (xa, Int.ofNat ui, Int.ofNat vi)
  | 1 => (Int.ofNat vi, xa, Int.ofNat ui)
  | _ => (Int.ofNat ui, Int.ofNat vi, xa)

/-- The sweep direction q (unit vector along axis). -/
def qvec (axis : Nat) : Int × Int × Int :=
  match axis with
  | 0 => (Int.ofNat 1, Int.ofNat 0, Int.ofNat 0)
  | 1 => (Int.ofNat 0, Int.ofNat 1, Int.ofNat 0)
  | _ => (Int.ofNat 0, Int.ofNat 0, Int.ofNat 1)

/-- Componentwise triple addition. -/
def addv (a b : Int × Int × Int) : Int × Int × Int :=
  (a.1 + b.1, a.2.1 + b.2.1, a.2.2 + b.2.2)

/-- Triple with component k set to a and the rest 0 (the du / dv vectors). -/
def unitv (k : Nat) (a : Int) : Int × Int × Int :=
  match k with
  | 0 => (a, Int.ofNat 0, Int.ofNat 0)
  | 1 => (Int.ofNat 0, a, Int.ofNat 0)
  | _ => (Int.ofNat 0, Int.ofNat 0, a)

/-- A sweep-mask cell of Chunk::mesh: none = MaskValue::None,
some (true, id) = Positive(block with that id),
some (false, id) = Negative.  Equality of these values coincides with the
PartialEq of the source (polarity plus block id).
The cell is computed for the slice boundary between x[axis] = xa and
xa + 1, at in-slice coordinates x[u] = ui, x[v] = vi; maskA and maskB are
the a and b values of the source mask build loop. -/
def maskA (g : Grid) (axis : Nat) (xa : Int) (ui vi : Nat) : Option Nat :=
  let x := xvec axis xa ui vi
  if ge0 xa then
    if is_face_visible g x.1 x.2.1 x.2.2 ((sideOfNat axis).getD Side.NORTH) then
      let id := g (block_pos_to_index x.1.toNat x.2.1.toNat x.2.2.toNat)
      if id == 0 then none else some id
    else none
  else none

/-- The b value of the mask build loop: the face on the negative side of
the neighbour cell at x + q (visible from x), guarded by
x[axis] < CHUNK_SIZE - 1. -/
def maskB (g : Grid) (axis : Nat) (xa : Int) (ui vi : Nat) : Option Nat :=
  let xq := addv (xvec axis xa ui vi) (qvec axis)
  if ltN xa (CHUNK_SIZE - 1) then
    if is_face_visible g xq.1 xq.2.1 xq.2.2
        ((sideOfNat (axis + 3)).getD Side.NORTH) then
      let id := g (block_pos_to_index xq.1.toNat xq.2.1.toNat xq.2.2.toNat)
      if id == 0 then none else some id
    else none
  else none

def maskCell (g : Grid) (axis : Nat) (xa : Int) (ui vi : Nat) :
    Option (Bool × Nat) :=
  match maskA g axis xa ui vi, maskB g axis xa ui vi with
  | some ida, none => some (true, ida)
  | none, some idb => some (false, idb)
  | _, _ => none

/-- A coordinate holds a solid voxel, with anything outside the chunk
bounds treated as empty.  Stated from the claim wording (the face
visibility rule) for comparison with the mask computation of the source. -/
def solidAt (g : Grid) (p : Int × Int × Int) : Bool :=
  inBounds3 p && (g (block_pos_to_index p.1.toNat p.2.1.toNat p.2.2.toNat) != 0)

/-- The per-face light modifier of emit_quad. -/
def lightOf : Side → Nat
  | Side.NORTH => 8
  | Side.SOUTH => 8
  | Side.WEST => 6
  | Side.EAST => 6
  | Side.TOP => 10
  | Side.BOTTOM => 5

/-- The vertex as written by emit_quad: integer position translated by the
chunk world offset, a constant white tint and the per-face light modifier. -/
structure Vertex where
  pos : Int × Int × Int
  color : Nat × Nat × Nat
  light_modifier : Nat

/-- Output state of Chunk::mesh: the vertex and index streams written so far
(vertices_index and indices_index are their lengths) and indices_max. -/
structure MeshOut where
  vertices : List Vertex
  indices : List Nat
  indices_max : Nat

/-- emit_quad: four vertices for the corners plus the chunk translation, and
six indices 0,1,2,2,3,0 shifted by indices_max, which then advances by 4. -/
def emit_quad (pos : ChunkPos) (c0 c1 c2 c3 : Int × Int × Int) (side : Side)
    (st : MeshOut) : MeshOut :=
  let off : Int × Int × Int :=
    (pos.x * Int.ofNat CHUNK_SIZE, Int.ofNat pos.y * Int.ofNat CHUNK_SIZE,
     pos.z * Int.ofNat CHUNK_SIZE)
  let mk : (Int × Int × Int) → Vertex :=
    fun c => ⟨addv c off, (255, 255, 255), lightOf side⟩
  { vertices := st.vertices ++ [mk c0, mk c1, mk c2, mk c3],
    indices := st.indices ++ ([0, 1, 2, 2, 3, 0].map fun i => st.indices_max + i),
    indices_max := st.indices_max + 4 }

/-- Base for the packed sweep-mask representation: the
CHUNK_SIZE * CHUNK_SIZE mask cells of one slice are stored as the base
2 ^ 32 digits of a single natural number (digit n is the cell at flat mask
index n = x[v] * CHUNK_SIZE + x[u]), so that the embedding of the greedy
pass evaluates efficiently.  Every digit is a maskCode, which is well below
2 ^ 32 for u16 block ids. -/
def MB : Nat := 2 ^ 32

/-- Injective numeric code of a mask cell: 0 for MaskValue::None,
2 * id + 1 for Positive(id), 2 * id + 2 for Negative(id).  Equality of
codes coincides with the PartialEq of MaskValue in the source (polarity
plus block id). -/
def maskCode : Option (Bool × Nat) → Nat
  | none => 0
  | some (true, id) => 2 * id + 1
  | some (false, id) => 2 * id + 2

/-- Digit k of a packed mask: the code of mask cell k. -/
def maskDigit (m k : Nat) : Nat := m / MB ^ k % MB

/-- The flat grid index of the cell with coordinate c on the sweep axis and
in-slice coordinates ui, vi (the same coordinate mapping as xvec). -/
def coordIdx (axis c ui vi : Nat) : Nat :=
  match axis with
  | 0 => block_pos_to_index c ui vi
  | 1 => block_pos_to_index vi c ui
  | _ => block_pos_to_index ui vi c

/-- Arithmetized sweep-mask cell, indexed by the slice boundary
s = x[axis] + 1 (0 to CHUNK_SIZE): the code of the mask value between cell A
at axis coordinate s - 1 and cell B at axis coordinate s, with ids read as 0
beyond the boundary slices.  The theorem maskCellN_eq proves this agrees
with maskCode of the faithful maskCell on the entire sweep domain; mesh uses
this form because it evaluates fast. -/
def maskCellN (g : Grid) (axis s ui vi : Nat) : Nat :=
  let idA := if 0 < s then g (coordIdx axis (s - 1) ui vi) else 0
  let idB := if s < CHUNK_SIZE then g (coordIdx axis s ui vi) else 0
  if idA != 0 && idB == 0 then 2 * idA + 1
  else if idB != 0 && idA == 0 then 2 * idB + 2
  else 0

/-- The mask build loop of Chunk::mesh for the slice boundary
s = x[axis] + 1: all CHUNK_SIZE * CHUNK_SIZE cells are (re)written, packed
as digits.  Cell n has x[u] = n % CHUNK_SIZE, x[v] = n / CHUNK_SIZE. -/
def buildMask (g : Grid) (axis s : Nat) : Nat :=
  (List.range (CHUNK_SIZE * CHUNK_SIZE)).foldl
    (fun acc n =>
      acc + maskCellN g axis s (n % CHUNK_SIZE) (n / CHUNK_SIZE) * MB ^ n)
    0

/-- The width loop of the greedy merge: grow while i + width stays in the
row and the next mask cell equals c (fuel-bounded; CHUNK_SIZE suffices). -/
def widthLoop (m c i n w : Nat) : Nat → Nat
  | 0 => w
  | fuel + 1 =>
    if i + w < CHUNK_SIZE ∧ maskDigit m (n + w) = c then
      widthLoop m c i n (w + 1) fuel
    else w

/-- One row test of the height loop: all width cells of mask row h equal c. -/
def rowOk (m c n w h : Nat) : Bool :=
  (List.range w).all fun k => maskDigit m (n + k + h * CHUNK_SIZE) == c

/-- The height loop of the greedy merge: grow while height + j stays in the
slice and the whole next row matches (the done flag of the source). -/
def heightLoop (m c n w j h : Nat) : Nat → Nat
  | 0 => h
  | fuel + 1 =>
    if h + j < CHUNK_SIZE ∧ rowOk m c n w h then heightLoop m c n w j (h + 1) fuel
    else h

/-- Zero the w digits starting at digit position s. -/
def clearDigits (m s w : Nat) : Nat :=
  m % MB ^ s + m / MB ^ (s + w) * MB ^ (s + w)

/-- Clearing the merged width-by-height region starting at mask index n
(the cells n + k + l * CHUNK_SIZE for k < w, l < h). -/
def clearRegion (m n w h : Nat) : Nat :=
  (List.range h).foldl (fun acc l => clearDigits acc (n + l * CHUNK_SIZE) w) m

/-- The inner while i < CHUNK_SIZE loop of the greedy pass over one mask
row j: find the next unmerged cell, compute width and height, emit one quad
(at x[axis] = xa1, the already-incremented slice coordinate, with the side
variable holding the negative side of the axis after the mask build loop),
clear the region, skip the width.  Fuel CHUNK_SIZE suffices since i grows
by at least one per step.  A cell code is positive (is_positive) exactly
when it is odd. -/
def cellLoop (pos : ChunkPos) (axis : Nat) (xa1 : Int) (j : Nat) :
    Nat → Nat → Nat → MeshOut → Nat → Nat × Nat × MeshOut
  | m, _, n, st, 0 => (m, n, st)
  | m, i, n, st, fuel + 1 =>
    if i < CHUNK_SIZE then
      let c := maskDigit m n
      if c = 0 then cellLoop pos axis xa1 j m (i + 1) (n + 1) st fuel
      else
        let w := widthLoop m c i n 1 CHUNK_SIZE
        let h := heightLoop m c n w j 1 CHUNK_SIZE
        let base := xvec axis xa1 i j
        let du :=
          if c % 2 = 1 then unitv (axisU axis) (Int.ofNat w)
          else unitv (axisV axis) (Int.ofNat h)
        let dv :=
          if c % 2 = 1 then unitv (axisV axis) (Int.ofNat h)
          else unitv (axisU axis) (Int.ofNat w)
        let st2 := emit_quad pos base (addv base du) (addv base (addv du dv))
          (addv base dv) ((sideOfNat (axis + 3)).getD Side.NORTH) st
        let m2 := clearRegion m n w h
        cellLoop pos axis xa1 j m2 (i + w) (n + w) st2 fuel
    else (m, n, st)

/-- The for j in 0..CHUNK_SIZE loop of the greedy pass; n is threaded across
rows exactly as in the source. -/
def rowLoop (pos : ChunkPos) (axis : Nat) (xa1 : Int) :
    Nat → Nat → Nat → MeshOut → Nat → Nat × Nat × MeshOut
  | m, _, n, st, 0 => (m, n, st)
  | m, j, n, st, fuel + 1 =>
    if j < CHUNK_SIZE then
      let r := cellLoop pos axis xa1 j m 0 n st CHUNK_SIZE
      rowLoop pos axis xa1 r.1 (j + 1) r.2.1 r.2.2 fuel
    else (m, n, st)

/-- The while x[axis] < CHUNK_SIZE slice loop in terms of the slice
boundary s = x[axis] + 1 (so s runs from 0 to CHUNK_SIZE): build the mask
for boundary s, then run the greedy pass, which emits quads at the already
incremented coordinate x[axis] = s. -/
def sliceLoop (g : Grid) (pos : ChunkPos) (axis : Nat) :
    Nat → MeshOut → Nat → MeshOut
  | _, st, 0 => st
  | s, st, fuel + 1 =>
    if s < CHUNK_SIZE + 1 then
      let m := buildMask g axis s
      let r := rowLoop pos axis (Int.ofNat s) m 0 0 st CHUNK_SIZE
      sliceLoop g pos axis (s + 1) r.2.2 fuel
    else st

/-- src/world/chunk.rs Chunk::mesh: the three-axis greedy sweep.  Returns
the emitted vertex and index streams; vertices_count and indices_count of
the source are the lengths of these lists. -/
def mesh (g : Grid) (pos : ChunkPos) : MeshOut :=
  [0, 1, 2].foldl
    (fun st axis => sliceLoop g pos axis 0 st (CHUNK_SIZE + 1))
    ⟨[], [], 0⟩

/-- The regression grid: solid ids exactly on the 2 x 2 x 2 cube at the
origin (x, y, z all below 2), decoded from the flat index. -/
def cube2 : Grid :=
  fun idx =>
    if Nat.blt (idx / (CHUNK_SIZE * CHUNK_SIZE)) 2 &&
        Nat.blt (idx % (CHUNK_SIZE * CHUNK_SIZE) / CHUNK_SIZE) 2 &&
        Nat.blt (idx % CHUNK_SIZE) 2 then 1
    else 0

end Voxel

namespace Memory

/-- Vulkan memory property flag bits (vk::MemoryPropertyFlags):
DEVICE_LOCAL = 1, HOST_VISIBLE = 2, HOST_COHERENT = 4. -/
def DEVICE_LOCAL : Nat := 1

def HOST_VISIBLE : Nat := 2

def HOST_COHERENT : Nat := 4

/-- src/render/memory.rs enum AllocUsage. -/
inductive AllocUsage where
  | Staging
  | DeviceLocal
deriving DecidableEq

/-- vk::MemoryPropertyFlags::contains: all bits of props are present. -/
def containsFlags (flags props : Nat) : Bool :=
  flags &&& props == props

/-- The device memory-type table (vk::PhysicalDeviceMemoryProperties):
the property flags of the memory type at each index, of which the first
memory_type_count entries are valid. -/
structure MemoryProperties where
  memory_type_count : Nat
  memory_types : Nat → Nat

/-- Allocator::get_memory_properties: the required property mask for a
usage (the memory-properties argument is unused in the source as well). -/
def get_memory_properties (usage : AllocUsage) : Nat :=
  match usage with
  | AllocUsage.Staging => HOST_VISIBLE ||| HOST_COHERENT
  | AllocUsage.DeviceLocal => DEVICE_LOCAL

/-- The find predicate of Allocator::get_memory_type_index: bit i of the
memory_type_bits of the request is set and the memory type at index i
contains all required property flags. -/
def suitableType (mp : MemoryProperties) (props bits i : Nat) : Bool :=
  (bits &&& (1 <<< i) != 0) && containsFlags (mp.memory_types i) props

/-- First k in k, k+1, ..., k+n-1 satisfying p (the Iterator::find of the
source, over the range 0..memory_type_count). -/
def findFrom (p : Nat → Bool) (k : Nat) : Nat → Option Nat
  | 0 => none
  | n + 1 => if p k then some k else findFrom p (k + 1) n

/-- src/render/memory.rs Allocator::get_memory_type_index: the first index
below memory_type_count whose bit is set in the request type bits and whose
memory type contains the required properties; none models the
anyhow error (Failed to find suitable memory type). -/
def get_memory_type_index (mp : MemoryProperties) (props bits : Nat) :
    Option Nat :=
  findFrom (suitableType mp props bits) 0 mp.memory_type_count

end Memory

namespace Meshing

/-- size_of::<Vertex>() for the repr(C) Vertex of src/render/vertex.rs:
TVec3<i32> (12 bytes) + Vec3 (12 bytes) + u8 (1 byte) padded to the 4-byte
struct alignment. -/
def sizeOfVertex : Nat := 28

/-- src/threads/meshing.rs STAGING_BUFFER_SIZE_VERTICES. -/
def STAGING_BUFFER_SIZE_VERTICES : Nat :=
  Voxel.CHUNK_SIZE * Voxel.CHUNK_SIZE * Voxel.CHUNK_SIZE * sizeOfVertex * 36 / 5

/-- src/threads/meshing.rs STAGING_BUFFER_SIZE_INDICES. -/
def STAGING_BUFFER_SIZE_INDICES : Nat :=
  Voxel.CHUNK_SIZE * Voxel.CHUNK_SIZE * Voxel.CHUNK_SIZE * 36 * 2

/-- A voxel chunk entity as the worker sees it (src/world/chunk.rs struct
Chunk): grid, position and the mesh output counts. -/
structure ChunkEnt where
  pos : Voxel.ChunkPos
  grid : Voxel.Grid
  vertices_count : Nat
  indices_count : Nat

/-- The observable actions of one loop iteration of
MeshingThreadPool::thread_main. -/
inductive WorkerAction where
  | meshed
  | allocatedBuffer (bytes : Nat)
  | submitted
  | waitedIdle
  | sentCompletion
deriving DecidableEq

/-- One iteration of the worker loop of thread_main, given the exit flag
and the result of upgrading the received weak reference (none when every
strong reference was dropped).  Returns the actions performed this
iteration and whether the loop continues.  On a live chunk the worker
meshes it into its staging buffer, allocates a device-local buffer of the
exact vertex plus index byte size, records and submits the copy, waits for
queue idle and sends the completion; on a dead reference it does nothing
and continues. -/
def thread_step (exitFlag : Bool) (received : Option ChunkEnt) :
    List WorkerAction × Bool :=
  if exitFlag then ([], false)
  else
    match received with
    | none => ([], true)
    | some c =>
      let st := Voxel.mesh c.grid c.pos
      let c2 := { c with vertices_count := st.vertices.length,
                         indices_count := st.indices.length }
      ([WorkerAction.meshed,
        WorkerAction.allocatedBuffer
          (c2.vertices_count * sizeOfVertex + c2.indices_count * 4),
        WorkerAction.submitted, WorkerAction.waitedIdle,
        WorkerAction.sentCompletion], true)

end Meshing

namespace WorldM

/-- src/config.rs: RENDER_DISTANCE = 10. -/
def RENDER_DISTANCE : Nat := 10

/-- src/world/world.rs ChunkPos (x: i32, y: u32, z: i32). -/
structure ChunkPos where
  x : Int
  y : Nat
  z : Int
deriving DecidableEq

/-- The as-i32 cast of a u32 value (wraps at 2 ^ 31). -/
def u32AsI32 (n : Nat) : Int :=
  Int.ofNat ((n + 2 ^ 31) % 2 ^ 32) - Int.ofNat (2 ^ 31)

/-- The half-open integer range a..b of Rust, in increasing order. -/
def intRange (lo hi : Int) : List Int :=
  (List.range (hi - lo).toNat).map fun k => lo + Int.ofNat k

/-- The new-chunks triple loop of World::update_visible_chunks: every grid
position within RENDER_DISTANCE of the player chunk position on each axis,
skipping candidates with y < 0 or y > 10, with y then cast to u32.
The positions are listed in loop order; duplicates cannot arise. -/
def newChunkPositions (p : ChunkPos) : List ChunkPos :=
  (intRange (p.x - Int.ofNat RENDER_DISTANCE) (p.x + Int.ofNat RENDER_DISTANCE)).flatMap
    fun x =>
      (intRange (u32AsI32 p.y - Int.ofNat RENDER_DISTANCE)
          (u32AsI32 p.y + Int.ofNat RENDER_DISTANCE)).flatMap
        fun y =>
          if y < 0 ∨ 10 < y then []
          else
            (intRange (p.z - Int.ofNat RENDER_DISTANCE)
                (p.z + Int.ofNat RENDER_DISTANCE)).map
              fun z => ChunkPos.mk x y.toNat z

/-- The chunks_to_destroy test of World::update_visible_chunks: farther
than RENDER_DISTANCE + 2 from the player chunk position on some axis. -/
def tooFar (p k : ChunkPos) : Bool :=
  decide ((Int.ofNat (RENDER_DISTANCE + 2)) < (k.x - p.x).natAbs) ||
  decide ((Int.ofNat (RENDER_DISTANCE + 2)) < (u32AsI32 k.y - u32AsI32 p.y).natAbs) ||
  decide ((Int.ofNat (RENDER_DISTANCE + 2)) < (k.z - p.z).natAbs)

/-- One tick of World::update_visible_chunks on the key set of the chunks
map: drop the keys that are too far, then insert every new position whose
map entry is vacant (the completion-queue drain does not touch the map).
The map is modelled by its list of keys. -/
def update_visible_chunks (keys : List ChunkPos) (p : ChunkPos) :
    List ChunkPos :=
  let kept := keys.filter fun k => !tooFar p k
  (newChunkPositions p).foldl
    (fun acc pos => if pos ∈ acc then acc else acc ++ [pos]) kept

/-- The chunk-map keys after a sequence of ticks at the given player chunk
positions, starting from the empty world. -/
def runTicks (ps : List ChunkPos) : List ChunkPos :=
  ps.foldl update_visible_chunks []

end WorldM

namespace Memory

/-- The size of the chunk used by the concrete allocator runs below:
MIN_ALLOC_SIZE, the smallest chunk the program ever creates. -/
def S0 : Nat := MIN_ALLOC_SIZE

/-- A concrete operation sequence on one fresh chunk of size S0, using only
ordinary request sizes and a power-of-two alignment:
alloc(S0 - 3, align 1); alloc(1, 1); alloc(2, 1); free the middle
1-byte block; alloc(1, align 4); alloc(2, 1).
The fifth step hits the unsigned underflow of the alignment-padding
subtraction in Chunk::alloc (the free block at offset S0 - 3 has size 1,
smaller than the 3 bytes of padding needed for alignment 4). -/
def underflowRun : Option Chunk :=
  ((Chunk.new 0 S0 0).alloc (S0 - 3) 1 0).bind fun r1 =>
  (r1.2.alloc 1 1 0).bind fun r2 =>
  (r2.2.alloc 2 1 0).bind fun r3 =>
  (r3.2.free r2.1).bind fun c4 =>
  (c4.alloc 1 4 0).bind fun r5 =>
  (r5.2.alloc 2 1 0).map fun r6 => r6.2

/-- A fresh pool of some memory type, as Pool::new builds it. -/
def P0 : Pool := Pool.new 0

/-- Pool::alloc of 1 byte from the fresh (empty) pool, immediately followed
by Pool::free of the returned block; the pair is the chunk count and the
total free byte count afterwards. -/
def roundTripRun : Option (Nat × Nat) :=
  (P0.alloc 1 1).bind fun r =>
  (r.2.free r.1).map fun p2 => (p2.chunks.length, freeBytesPool p2)

/-- Total bytes of a block list (for the tiling lemmas). -/
def sizeSum (bs : List Block) : Nat := (bs.map Block.size).sum

/-- A well-formed chunk state used to refute the alignment claim for
non-power-of-two alignments: blocks in-use(0, 2^63 + 2),
free(2^63 + 2, 1), in-use(2^63 + 3, 1) tiling a chunk of 2^63 + 4 bytes. -/
def cexAlignChunk : Chunk :=
  ⟨0, [⟨0, 0, 0, 2 ^ 63 + 2, false⟩, ⟨0, 0, 2 ^ 63 + 2, 1, true⟩,
       ⟨0, 0, 2 ^ 63 + 3, 1, false⟩], 2 ^ 63 + 4⟩

end Memory

/-!
Helper lemmas, followed by one theorem per specification claim (with
witnesses for the theorems that carry hypotheses, and concrete
counterexample evaluations where the claim as stated fails on the code).
-/

namespace Memory

theorem findFrom_eq_some (p : Nat → Bool) :
    ∀ n k x, findFrom p k n = some x ↔
      k ≤ x ∧ x < k + n ∧ p x = true ∧ ∀ y, k ≤ y → y < x → p y = false := by
  intro n
  induction n with
  | zero => intro k x; simp [findFrom]; omega
  | succ n ih =>
    intro k x
    simp only [findFrom]
    by_cases hk : p k = true
    · simp [hk]
      constructor
      · rintro rfl
        exact ⟨Nat.le_refl _, by omega, hk, fun y h1 h2 => absurd h1 (by omega)⟩
      · rintro ⟨h1, _, hx, hmin⟩
        rcases Nat.eq_or_lt_of_le h1 with rfl | hlt
        · rfl
        · exact absurd hk (by simp [hmin k (Nat.le_refl k) hlt])
    · simp only [Bool.not_eq_true] at hk
      simp [hk, ih (k + 1) x]
      constructor
      · rintro ⟨h1, h2, hx, hmin⟩
        refine ⟨by omega, by omega, hx, fun y hy1 hy2 => ?_⟩
        rcases Nat.eq_or_lt_of_le hy1 with rfl | hlt
        · exact hk
        · exact hmin y hlt hy2
      · rintro ⟨h1, h2, hx, hmin⟩
        have hkx : k ≠ x := by
          rintro rfl; rw [hx] at hk; cases hk
        exact ⟨by omega, by omega, hx, fun y hy1 hy2 => hmin y (by omega) hy2⟩

theorem findFrom_eq_none (p : Nat → Bool) :
    ∀ n k, findFrom p k n = none ↔ ∀ y, k ≤ y → y < k + n → p y = false := by
  intro n
  induction n with
  | zero => intro k; simp [findFrom]; omega
  | succ n ih =>
    intro k
    simp only [findFrom]
    by_cases hk : p k = true
    · simp [hk]
      exact ⟨k, Nat.le_refl k, by omega, hk⟩
    · simp only [Bool.not_eq_true] at hk
      simp [hk, ih (k + 1)]
      constructor
      · rintro h y hy1 hy2
        rcases Nat.eq_or_lt_of_le hy1 with rfl | hlt
        · exact hk
        · exact h y hlt (by omega)
      · exact fun h y hy1 hy2 => h y (by omega) (by omega)

end Memory

/-- C6: Allocator::get_memory_type_index returns the smallest index i below
memory_type_count whose bit is set in the request type bits and whose
memory type contains all required property flags (suitableType), and
returns the error exactly when no such index exists; Staging resolves to
HOST_VISIBLE plus HOST_COHERENT and DeviceLocal to DEVICE_LOCAL. -/
theorem get_memory_type_index_first_suitable
    (mp : Memory.MemoryProperties) (props bits : Nat) :
    (∀ i, Memory.get_memory_type_index mp props bits = some i ↔
      (i < mp.memory_type_count ∧
        Memory.suitableType mp props bits i = true ∧
        ∀ j, j < i → Memory.suitableType mp props bits j = false)) ∧
    (Memory.get_memory_type_index mp props bits = none ↔
      ∀ i, i < mp.memory_type_count →
        Memory.suitableType mp props bits i = false) ∧
    Memory.get_memory_properties Memory.AllocUsage.Staging =
      (Memory.HOST_VISIBLE ||| Memory.HOST_COHERENT) ∧
    Memory.get_memory_properties Memory.AllocUsage.DeviceLocal =
      Memory.DEVICE_LOCAL := by
  refine ⟨fun i => ?_, ?_, rfl, rfl⟩
  · rw [Memory.get_memory_type_index, Memory.findFrom_eq_some]
    constructor
    · rintro ⟨_, h2, h3, h4⟩
      exact ⟨by omega, h3, fun j hj => h4 j (Nat.zero_le j) hj⟩
    · rintro ⟨h1, h2, h3⟩
      exact ⟨Nat.zero_le i, by omega, h2, fun y _ hy => h3 y hy⟩
  · rw [Memory.get_memory_type_index, Memory.findFrom_eq_none]
    constructor
    · exact fun h i hi => h i (Nat.zero_le i) (by omega)
    · exact fun h y _ hy => h y (by omega)

/-- C9: a meshing worker iteration whose weak chunk reference failed to
upgrade performs no action at all (no meshing, no allocation, no upload, no
completion event) and continues the loop, while an iteration on a live
chunk does send a completion. -/
theorem thread_step_dead_job_skipped :
    Meshing.thread_step false none = ([], true) ∧
    ∀ c, Meshing.WorkerAction.sentCompletion ∈
      (Meshing.thread_step false (some c)).1 := by
  refine ⟨rfl, fun c => ?_⟩
  simp [Meshing.thread_step]

namespace WorldM

theorem mem_newChunkPositions_y_le {p : ChunkPos} {pos : ChunkPos}
    (h : pos ∈ newChunkPositions p) : pos.y ≤ 10 := by
  simp only [newChunkPositions, List.mem_flatMap] at h
  obtain ⟨x, -, y, -, hy⟩ := h
  by_cases hcase : y < 0 ∨ 10 < y
  · simp [hcase] at hy
  · simp only [hcase, if_false] at hy
    simp only [List.mem_map] at hy
    obtain ⟨z, -, rfl⟩ := hy
    push_neg at hcase
    show y.toNat ≤ 10
    omega

theorem mem_insert_fold {α : Type} [DecidableEq α] :
    ∀ (l : List α) (acc : List α) (k : α),
      k ∈ l.foldl (fun acc pos => if pos ∈ acc then acc else acc ++ [pos]) acc →
      k ∈ acc ∨ k ∈ l := by
  intro l
  induction l with
  | nil => intro acc k h; exact Or.inl h
  | cons a l ih =>
    intro acc k h
    simp only [List.foldl_cons] at h
    rcases ih _ k h with hacc | hl
    · by_cases ha : a ∈ acc
      · simp [ha] at hacc; exact Or.inl hacc
      · simp only [ha, if_false, List.mem_append, List.mem_singleton] at hacc
        rcases hacc with h1 | rfl
        · exact Or.inl h1
        · exact Or.inr (by simp)
    · exact Or.inr (List.mem_cons_of_mem a hl)

theorem mem_update_visible_chunks {keys : List ChunkPos} {p k : ChunkPos}
    (h : k ∈ update_visible_chunks keys p) :
    k ∈ keys ∨ k ∈ newChunkPositions p := by
  rcases mem_insert_fold _ _ _ h with hkept | hnew
  · exact Or.inl (List.mem_of_mem_filter hkept)
  · exact Or.inr hnew

end WorldM

/-- C10: World::update_visible_chunks only ever creates chunk entities whose
chunk-grid y coordinate is between 0 and 10 (candidates outside are
skipped), so that after any sequence of ticks from the empty world every
key of the chunks map has y at most 10 (y is a u32, so 0 <= y holds by
type). -/
theorem world_streamer_y_bound :
    (∀ (p pos : WorldM.ChunkPos),
      pos ∈ WorldM.newChunkPositions p → pos.y ≤ 10) ∧
    (∀ (ps : List WorldM.ChunkPos) (k : WorldM.ChunkPos),
      k ∈ WorldM.runTicks ps → k.y ≤ 10) := by
  constructor
  · exact fun p pos h => WorldM.mem_newChunkPositions_y_le h
  · intro ps
    suffices h : ∀ (acc : List WorldM.ChunkPos),
        (∀ k ∈ acc, k.y ≤ 10) →
        ∀ k ∈ ps.foldl WorldM.update_visible_chunks acc, k.y ≤ 10 by
      exact fun k => h [] (by simp) k
    induction ps with
    | nil => intro acc hacc k hk; exact hacc k hk
    | cons q ps ih =>
      intro acc hacc k hk
      simp only [List.foldl_cons] at hk
      refine ih _ ?_ k hk
      intro k2 hk2
      rcases WorldM.mem_update_visible_chunks hk2 with h1 | h2
      · exact hacc k2 h1
      · exact WorldM.mem_newChunkPositions_y_le h2

/-- Witness for world_streamer_y_bound: the position with x = -10, y = 0,
z = -10 is created by a tick at the origin and its y is within the bound. -/
theorem world_streamer_y_bound_witness :
    (WorldM.ChunkPos.mk (-10) 0 (-10) ∈
      WorldM.newChunkPositions (WorldM.ChunkPos.mk 0 0 0)) ∧
    (WorldM.ChunkPos.mk (-10) 0 (-10)).y ≤ 10 :=
  ⟨by decide, world_streamer_y_bound.1 (WorldM.ChunkPos.mk 0 0 0)
      (WorldM.ChunkPos.mk (-10) 0 (-10)) (by decide)⟩

/-- C1 (refuting evaluation): the partition and no-overlap invariant of the
chunk block list is broken by a concrete sequence of ordinary allocations
and frees.  Starting from a fresh well-formed chunk of MIN_ALLOC_SIZE
bytes, the sequence of underflowRun drives Chunk::alloc into the unsigned
underflow of the alignment-padding subtraction (a free 1-byte block needing
3 bytes of padding for alignment 4 is chosen as fitting because the
wrapped effective size is huge), after which two live blocks occupy
overlapping byte ranges (the release build wraps; a debug build panics on
the same subtraction). -/
theorem chunk_alloc_underflow_overlap :
    Memory.Chunk.WF (Memory.Chunk.new 0 Memory.S0 0) ∧
    Memory.underflowRun =
      some ⟨0, [⟨0, 0, 0, Memory.S0 - 3, false⟩,
                ⟨0, 0, Memory.S0 - 3, 2, false⟩,
                ⟨0, 0, Memory.S0 - 1, 1, true⟩,
                ⟨0, 0, Memory.S0, 1, false⟩,
                ⟨0, 0, Memory.S0 + 1, 2 ^ 64 - 3, true⟩,
                ⟨0, 0, Memory.S0 - 2, 2, false⟩], Memory.S0⟩ ∧
    (Memory.underflowRun.map fun c => Memory.anyLiveOverlap c.blocks) =
      some true := by
  refine ⟨by decide, by decide, by decide⟩

/-- C3 (counterexample): Pool::alloc immediately followed by Pool::free of
the returned block does not leave the chunk count and the total free byte
count unchanged when the allocation triggers growth: on a fresh empty pool,
a 1-byte alloc grows the pool by one chunk of 2 ^ 25 bytes (the doubled
growth size) and the chunk survives the free, leaving 1 chunk and 2 ^ 25
free bytes where the claim requires 0 and 0. -/
theorem pool_round_trip_growth_counterexample :
    Memory.P0.chunks.length = 0 ∧ Memory.freeBytesPool Memory.P0 = 0 ∧
    Memory.roundTripRun = some (1, 2 ^ 25) := by
  refine ⟨by decide, by decide, by decide⟩

/-- C4 (counterexample): for a well-formed chunk state and a request with
size 1 > 0 and (non-power-of-two) alignment 2 ^ 63 + 1 > 0, Chunk::alloc
returns a block whose offset modulo the requested alignment is 2, not 0:
the offset addition offset + before_size wraps in u64.  The requested-size
half of the claim does hold (the returned size is 1). -/
theorem chunk_alloc_misaligned_counterexample :
    Memory.Chunk.WF Memory.cexAlignChunk ∧
    ((Memory.cexAlignChunk.alloc 1 (2 ^ 63 + 1) 0).map
        fun r => (r.1.offset % (2 ^ 63 + 1), r.1.size)) = some (2, 1) := by
  refine ⟨by decide, by decide⟩

/-- C5 (counterexample): the growth-size update is not monotone and does
not stay a power of two over all of u64: on a fresh pool (growth size
MIN_ALLOC_SIZE = 2 ^ 24), a request of 2 ^ 63 + 1 bytes wraps the
round-up-to-next-power-of-two bit smear to 0, so the stored growth size
becomes 0 (a decrease, and not a power of two), and the expect of
Pool::alloc fails because the new zero-size chunk cannot satisfy the
request (modelled as none). -/
theorem grow_step_wrap_counterexample :
    Memory.growStep Memory.P0.size (2 ^ 63 + 1) = 0 ∧
    ¬ Memory.isPow2 0 ∧ 0 < Memory.P0.size ∧
    Memory.P0.alloc (2 ^ 63 + 1) 1 = none := by
  refine ⟨by decide, ?_, by decide, by decide⟩
  rintro ⟨k, hk⟩
  have := Nat.pos_pow_of_pos k (by omega : 0 < 2)
  omega

set_option maxHeartbeats 10000000 in
set_option maxRecDepth 100000 in
/-- C7: greedy meshing of the voxel grid whose solid cells are exactly a
2 x 2 x 2 cube at the origin (no neighbouring chunks) emits exactly 6
fully merged quads, one per cube face: 24 vertices and 36 indices (4
vertices and 6 indices per quad). -/
theorem greedy_mesh_cube2_counts :
    (fun st => (st.vertices.length, st.indices.length))
      (Voxel.mesh Voxel.cube2 (Voxel.ChunkPos.mk 0 0 0)) = (24, 36) := by
  decide
-- C7END

namespace Memory

theorem window_or (x y w : Nat) (hw : 0 < w)
    (hy : ∀ i, y.testBit i = true ↔ ∃ d, d < w ∧ x.testBit (i + d) = true) :
    ∀ i, (y ||| y >>> w).testBit i = true ↔
      ∃ d, d < w + w ∧ x.testBit (i + d) = true := by
  intro i
  rw [Nat.testBit_or, Bool.or_eq_true, Nat.testBit_shiftRight, hy i, hy (w + i)]
  constructor
  · rintro (⟨d, hd, hb⟩ | ⟨d, hd, hb⟩)
    · exact ⟨d, by omega, hb⟩
    · exact ⟨w + d, by omega, by rwa [show i + (w + d) = w + i + d by omega]⟩
  · rintro ⟨d, hd, hb⟩
    by_cases hdw : d < w
    · exact Or.inl ⟨d, hdw, hb⟩
    · exact Or.inr ⟨d - w, by omega,
        by rwa [show w + i + (d - w) = i + d by omega]⟩

theorem smear6_testBit (x : Nat) :
    ∀ i, (smear6 x).testBit i = true ↔
      ∃ d, d < 64 ∧ x.testBit (i + d) = true := by
  have h1 : ∀ i, x.testBit i = true ↔ ∃ d, d < 1 ∧ x.testBit (i + d) = true := by
    intro i
    constructor
    · exact fun h => ⟨0, Nat.one_pos, by simpa using h⟩
    · rintro ⟨d, hd, hb⟩
      interval_cases d
      simpa using hb
  have h2 := window_or x x 1 (by omega) h1
  have h4 := window_or x _ 2 (by omega) h2
  have h8 := window_or x _ 4 (by omega) h4
  have h16 := window_or x _ 8 (by omega) h8
  have h32 := window_or x _ 16 (by omega) h16
  have h64 := window_or x _ 32 (by omega) h32
  exact h64

theorem lt_two_pow_of_high_bits {x i : Nat}
    (h : ∀ j, i ≤ j → x.testBit j = false) : x < 2 ^ i := by
  have hz : x >>> i = 0 := by
    apply Nat.eq_of_testBit_eq
    intro d
    rw [Nat.testBit_shiftRight, Nat.zero_testBit]
    exact h (i + d) (by omega)
  rw [Nat.shiftRight_eq_div_pow] at hz
  have hmd := Nat.mod_add_div x (2 ^ i)
  rw [hz, Nat.mul_zero, Nat.add_zero] at hmd
  have hm := Nat.mod_lt x (show 0 < 2 ^ i from Nat.pos_pow_of_pos i (by omega))
  omega

theorem smear6_eq_pow_sub_one {x : Nat} (hx : x < 2 ^ 64) :
    smear6 x = 2 ^ x.size - 1 := by
  apply Nat.eq_of_testBit_eq
  intro i
  rw [Nat.testBit_two_pow_sub_one]
  by_cases hi : i < x.size
  · rw [decide_eq_true hi]
    have h2i : 2 ^ i ≤ x := Nat.lt_size.mp hi
    by_contra hne
    have hnex : ¬ ∃ d, d < 64 ∧ x.testBit (i + d) = true :=
      fun hex => hne ((smear6_testBit x i).mpr hex)
    push_neg at hnex
    have hlt : x < 2 ^ i := by
      apply lt_two_pow_of_high_bits
      intro j hj
      by_cases hj64 : j < i + 64
      · have hd := hnex (j - i) (by omega)
        rw [show i + (j - i) = j by omega] at hd
        exact Bool.not_eq_true _ ▸ hd
      · exact Nat.testBit_lt_two_pow
          (lt_of_lt_of_le hx (Nat.pow_le_pow_right (by omega) (by omega)))
    omega
  · rw [decide_eq_false hi, Bool.eq_false_iff]
    intro hbit
    rw [smear6_testBit] at hbit
    obtain ⟨d, -, hb⟩ := hbit
    have := Nat.testBit_implies_ge hb
    have hsz : x < 2 ^ (i + d) := by
      calc x < 2 ^ x.size := Nat.lt_size_self x
      _ ≤ 2 ^ (i + d) := Nat.pow_le_pow_right (by omega) (by omega)
    omega

theorem nextPow2u64_eq {m : Nat} (h1 : 1 ≤ m) (h2 : m ≤ 2 ^ 63) :
    nextPow2u64 m = 2 ^ (m - 1).size := by
  have hsub : sub64 m 1 = m - 1 := by
    have hW : W64 = 2 ^ 64 := rfl
    rw [sub64, hW]
    have : m + 2 ^ 64 - 1 = (m - 1) + 2 ^ 64 := by omega
    rw [this, Nat.add_mod_right, Nat.mod_eq_of_lt (by omega)]
  have hs63 : (m - 1).size ≤ 63 := Nat.size_le.mpr (by omega)
  have hpow : 2 ^ (m - 1).size ≤ 2 ^ 63 := Nat.pow_le_pow_right (by omega) hs63
  rw [nextPow2u64, hsub, smear6_eq_pow_sub_one (by omega), add64]
  have h2p : 0 < 2 ^ (m - 1).size := Nat.pos_pow_of_pos _ (by omega)
  have : 2 ^ (m - 1).size - 1 + 1 = 2 ^ (m - 1).size := by omega
  rw [this]
  exact Nat.mod_eq_of_lt (by have : W64 = 2 ^ 64 := rfl; omega)

theorem nextPow2u64_bounds {m : Nat} (h1 : 1 ≤ m) (h2 : m ≤ 2 ^ 63) :
    m ≤ nextPow2u64 m ∧ nextPow2u64 m < 2 * m ∧
      nextPow2u64 m ≤ 2 ^ 63 ∧ isPow2 (nextPow2u64 m) := by
  rw [nextPow2u64_eq h1 h2]
  have hup : m - 1 < 2 ^ (m - 1).size := Nat.lt_size_self _
  have hs63 : (m - 1).size ≤ 63 := Nat.size_le.mpr (by omega)
  have hle : 2 ^ (m - 1).size ≤ 2 ^ 63 := Nat.pow_le_pow_right (by omega) hs63
  refine ⟨by omega, ?_, hle, ⟨(m - 1).size, rfl⟩⟩
  by_cases hm1 : m = 1
  · subst hm1
    simp [Nat.size_zero]
  · have hpos : 0 < m - 1 := by omega
    have hszpos : 0 < (m - 1).size := Nat.size_pos.mpr hpos
    have hlow : 2 ^ ((m - 1).size - 1) ≤ m - 1 := by
      by_contra hcon
      push_neg at hcon
      have := Nat.size_le.mpr hcon
      omega
    have : 2 ^ (m - 1).size = 2 ^ ((m - 1).size - 1) * 2 := by
      rw [← Nat.pow_succ]
      congr 1
      omega
    omega

end Memory

/-- C5 (amended): for a power-of-two growth size old with 0 < old <= 2^62
and a requested size req <= 2^63 (the bounds below which the u64 rounding
and doubling cannot wrap), the growth step of Pool::alloc rounds
max(req, old) up to the next power of two (the least power of two greater
than or equal to it, hence below twice it) and doubles it when it equals
old, so the result is a power of two, strictly greater than the previous
growth size, at least the requested size (the new chunk of that size
satisfies the triggering request), and at most 2^63.  Growth size therefore
only grows and stays a power of two while these bounds hold. -/
theorem grow_step_bounds (old req : Nat) (hp : Memory.isPow2 old)
    (h0 : 0 < old) (hold : old ≤ 2 ^ 62) (hreq : req ≤ 2 ^ 63) :
    Memory.isPow2 (Memory.growStep old req) ∧
    old < Memory.growStep old req ∧
    req ≤ Memory.growStep old req ∧
    Memory.growStep old req ≤ 2 ^ 63 ∧
    Nat.max req old ≤ Memory.nextPow2u64 (Nat.max req old) ∧
    Memory.nextPow2u64 (Nat.max req old) < 2 * Nat.max req old := by
  have hr : req ≤ Nat.max req old := Nat.le_max_left req old
  have ho : old ≤ Nat.max req old := Nat.le_max_right req old
  have hm1 : 1 ≤ Nat.max req old := by omega
  have hm2 : Nat.max req old ≤ 2 ^ 63 :=
    Nat.max_le.mpr ⟨hreq, le_trans hold (by norm_num)⟩
  obtain ⟨hge, hlt2, hle63, hpow⟩ := Memory.nextPow2u64_bounds hm1 hm2
  unfold Memory.growStep
  by_cases heq : old = Memory.nextPow2u64 (Nat.max req old)
  · rw [if_pos (by simpa using heq)]
    obtain ⟨k, hk⟩ := hp
    have hW : Memory.W64 = 2 ^ 64 := rfl
    have hmod : Memory.nextPow2u64 (Nat.max req old) * 2 % Memory.W64 =
        Memory.nextPow2u64 (Nat.max req old) * 2 := by
      apply Nat.mod_eq_of_lt
      rw [hW]
      have : Memory.nextPow2u64 (Nat.max req old) ≤ 2 ^ 62 := heq ▸ hold
      omega
    rw [hmod]
    refine ⟨⟨k + 1, by rw [← heq, hk]; ring⟩, by omega, by omega, ?_, hge, hlt2⟩
    have : Memory.nextPow2u64 (Nat.max req old) ≤ 2 ^ 62 := heq ▸ hold
    omega
  · rw [if_neg (by simpa using heq)]
    exact ⟨hpow, by omega, by omega, hle63, hge, hlt2⟩

/-- Witness for grow_step_bounds at the initial growth size 2^24 and a
small request: the pool grows from 2^24 to 2^25. -/
theorem grow_step_bounds_witness :
    Memory.growStep (2 ^ 24) 5 = 2 ^ 25 ∧ Memory.isPow2 (2 ^ 25) ∧
    (2 ^ 24 : Nat) < 2 ^ 25 ∧ 5 ≤ 2 ^ 25 := by
  have h := grow_step_bounds (2 ^ 24) 5 ⟨24, rfl⟩ (by omega) (by norm_num)
    (by norm_num)
  refine ⟨by decide, ⟨25, rfl⟩, by norm_num, by norm_num⟩

namespace Memory

theorem add64_pad_mod (x k : Nat) (hk : k < 64) :
    add64 x (padOf x (2 ^ k)) % 2 ^ k = 0 := by
  have hdvd : (2 ^ k : Nat) ∣ W64 := by
    have hW : W64 = 2 ^ 64 := rfl
    rw [hW]
    exact Nat.pow_dvd_pow 2 (by omega)
  rw [add64, Nat.mod_mod_of_dvd _ hdvd, padOf]
  have hpos : 0 < 2 ^ k := Nat.pos_pow_of_pos k (by omega)
  by_cases hx : x % 2 ^ k = 0
  · simp only [ne_eq, hx, not_true_eq_false, if_false]
    rw [Nat.add_zero]
    exact hx
  · simp only [ne_eq, hx, not_false_eq_true, if_true]
    have hlt : x % 2 ^ k < 2 ^ k := Nat.mod_lt x hpos
    rw [Nat.add_mod,
      Nat.mod_eq_of_lt (show 2 ^ k - x % 2 ^ k < 2 ^ k by omega),
      show x % 2 ^ k + (2 ^ k - x % 2 ^ k) = 2 ^ k by omega,
      Nat.mod_self]

end Memory

/-- C4 (amended): for every chunk state satisfying the partition invariant
and every request with positive size and positive power-of-two alignment
(as all Vulkan alignments are), when Chunk::alloc returns a block, the
block offset is a multiple of the requested alignment and the block size
equals the requested size.  For non-power-of-two alignments the offset can
wrap (see the counterexample); the size statement holds regardless. -/
theorem chunk_alloc_aligned_pow2 (c : Memory.Chunk) (size align mti k : Nat)
    (blk : Memory.Block) (c2 : Memory.Chunk)
    (hWF : c.WF) (hsize : 0 < size) (halign : 0 < align)
    (hk : align = 2 ^ k) (hk64 : k < 64)
    (h : c.alloc size align mti = some (blk, c2)) :
    blk.offset % align = 0 ∧ blk.size = size := by
  subst hk
  rw [Memory.Chunk.alloc] at h
  by_cases hcs : c.size < size
  · rw [if_pos hcs] at h; cases h
  · rw [if_neg hcs] at h
    cases hfind : Memory.findIdxO
        (fun b => Memory.fitsB b size (2 ^ k)) c.blocks with
    | none => rw [hfind] at h; cases h
    | some i =>
      rw [hfind] at h
      simp only [Option.some.injEq, Prod.mk.injEq] at h
      obtain ⟨hblk, -⟩ := h
      subst hblk
      exact ⟨Memory.add64_pad_mod _ k hk64, rfl⟩

/-- Witness for chunk_alloc_aligned_pow2: allocating 4096 bytes at
alignment 256 from a fresh MIN_ALLOC_SIZE chunk returns the aligned block
at offset 0 with size 4096. -/
theorem chunk_alloc_aligned_pow2_witness :
    Memory.Chunk.WF (Memory.Chunk.new 0 Memory.S0 0) ∧
    (Memory.Chunk.new 0 Memory.S0 0).alloc 4096 256 0 =
      some (⟨0, 0, 0, 4096, false⟩,
            ⟨0, [⟨0, 0, 0, 4096, false⟩,
                 ⟨0, 0, 4096, Memory.S0 - 4096, true⟩], Memory.S0⟩) ∧
    ((0 : Nat) % 256 = 0 ∧ (4096 : Nat) = 4096) :=
  ⟨by decide, by decide,
    by
      have h := chunk_alloc_aligned_pow2 (Memory.Chunk.new 0 Memory.S0 0)
        4096 256 0 8 ⟨0, 0, 0, 4096, false⟩
        ⟨0, [⟨0, 0, 0, 4096, false⟩,
             ⟨0, 0, 4096, Memory.S0 - 4096, true⟩], Memory.S0⟩
        (by decide) (by decide) (by decide) (by decide) (by decide) (by decide)
      exact h⟩

namespace Voxel

theorem is_face_visible_eq_not_solid (g : Grid) (x y z : Int) (side : Side) :
    is_face_visible g x y z side = !(solidAt g (sideOffset side (x, y, z))) := by
  rw [is_face_visible, solidAt]
  cases hb : inBounds3 (sideOffset side (x, y, z)) <;>
    simp [hb, bne, Bool.not_not]

theorem inBounds3_xvec (axis : Nat) (xa : Int) (ui vi : Nat)
    (hui : ui < CHUNK_SIZE) (hvi : vi < CHUNK_SIZE) :
    inBounds3 (xvec axis xa ui vi) = (ge0 xa && ltN xa CHUNK_SIZE) := by
  have hu : Nat.blt ui CHUNK_SIZE = true := Nat.blt_eq.mpr hui
  have hv : Nat.blt vi CHUNK_SIZE = true := Nat.blt_eq.mpr hvi
  rcases axis with _ | _ | n <;>
    cases xa with
    | ofNat a => simp [xvec, inBounds3, ge0, ltN, hu, hv]
    | negSucc a => simp [xvec, inBounds3, ge0, ltN, hu, hv]

end Voxel

namespace Voxel

theorem maskA_eq (g : Grid) (axis : Nat) (xa : Int) (ui vi : Nat)
    (h3 : axis < 3) (hhi : xa < 16) (hui : ui < CHUNK_SIZE)
    (hvi : vi < CHUNK_SIZE) :
    maskA g axis xa ui vi =
      (if solidAt g (xvec axis xa ui vi) &&
          !solidAt g (addv (xvec axis xa ui vi) (qvec axis)) then
        some (g (block_pos_to_index (xvec axis xa ui vi).1.toNat
          (xvec axis xa ui vi).2.1.toNat (xvec axis xa ui vi).2.2.toNat))
      else none) := by
  rw [maskA]
  cases hge : ge0 xa
  · have hsA : solidAt g (xvec axis xa ui vi) = false := by
      rw [solidAt, inBounds3_xvec axis xa ui vi hui hvi, hge]
      simp
    simp [hge, hsA]
  · have hlt : ltN xa CHUNK_SIZE = true := by
      cases xa with
      | ofNat a =>
        rw [ltN, Nat.blt_eq]
        show a < CHUNK_SIZE
        rw [Int.ofNat_eq_natCast] at hhi
        rw [show CHUNK_SIZE = 16 from rfl]
        omega
      | negSucc a => rfl
    have hsA : solidAt g (xvec axis xa ui vi) =
        (g (block_pos_to_index (xvec axis xa ui vi).1.toNat
          (xvec axis xa ui vi).2.1.toNat (xvec axis xa ui vi).2.2.toNat) != 0) := by
      rw [solidAt, inBounds3_xvec axis xa ui vi hui hvi, hge, hlt]
      simp
    interval_cases axis
    · rw [show (sideOfNat 0).getD Side.NORTH = Side.NORTH from rfl,
        is_face_visible_eq_not_solid]
      have hoff : sideOffset Side.NORTH ((xvec 0 xa ui vi).1,
          (xvec 0 xa ui vi).2.1, (xvec 0 xa ui vi).2.2) =
          addv (xvec 0 xa ui vi) (qvec 0) := by
        simp [xvec, sideOffset, addv, qvec]
      rw [hoff, hsA]
      cases hB : solidAt g (addv (xvec 0 xa ui vi) (qvec 0)) <;>
        cases hid : g (block_pos_to_index (xvec 0 xa ui vi).1.toNat
          (xvec 0 xa ui vi).2.1.toNat (xvec 0 xa ui vi).2.2.toNat) == 0 <;>
        simp [hid, bne]
    · rw [show (sideOfNat 1).getD Side.NORTH = Side.TOP from rfl,
        is_face_visible_eq_not_solid]
      have hoff : sideOffset Side.TOP ((xvec 1 xa ui vi).1,
          (xvec 1 xa ui vi).2.1, (xvec 1 xa ui vi).2.2) =
          addv (xvec 1 xa ui vi) (qvec 1) := by
        simp [xvec, sideOffset, addv, qvec]
      rw [hoff, hsA]
      cases hB : solidAt g (addv (xvec 1 xa ui vi) (qvec 1)) <;>
        cases hid : g (block_pos_to_index (xvec 1 xa ui vi).1.toNat
          (xvec 1 xa ui vi).2.1.toNat (xvec 1 xa ui vi).2.2.toNat) == 0 <;>
        simp [hid, bne]
    · rw [show (sideOfNat 2).getD Side.NORTH = Side.EAST from rfl,
        is_face_visible_eq_not_solid]
      have hoff : sideOffset Side.EAST ((xvec 2 xa ui vi).1,
          (xvec 2 xa ui vi).2.1, (xvec 2 xa ui vi).2.2) =
          addv (xvec 2 xa ui vi) (qvec 2) := by
        simp [xvec, sideOffset, addv, qvec]
      rw [hoff, hsA]
      cases hB : solidAt g (addv (xvec 2 xa ui vi) (qvec 2)) <;>
        cases hid : g (block_pos_to_index (xvec 2 xa ui vi).1.toNat
          (xvec 2 xa ui vi).2.1.toNat (xvec 2 xa ui vi).2.2.toNat) == 0 <;>
        simp [hid, bne]

end Voxel

namespace Voxel

theorem inBounds3_addv_q (axis : Nat) (xa : Int) (ui vi : Nat)
    (hlo : -1 ≤ xa) (hui : ui < CHUNK_SIZE) (hvi : vi < CHUNK_SIZE) :
    inBounds3 (addv (xvec axis xa ui vi) (qvec axis)) =
      ltN xa (CHUNK_SIZE - 1) := by
  have hu : Nat.blt ui CHUNK_SIZE = true := Nat.blt_eq.mpr hui
  have hv : Nat.blt vi CHUNK_SIZE = true := Nat.blt_eq.mpr hvi
  rcases axis with _ | _ | n <;>
    cases xa with
    | ofNat a =>
      simp only [xvec, addv, qvec, inBounds3, ltN]
      rw [show Int.ofNat a + Int.ofNat 1 = Int.ofNat (a + 1) from rfl,
        show (Int.ofNat ui + Int.ofNat 0) = Int.ofNat ui from rfl,
        show (Int.ofNat vi + Int.ofNat 0) = Int.ofNat vi from rfl]
      simp only [hu, hv, Bool.and_true, Bool.true_and]
      rw [show Nat.blt (a + 1) CHUNK_SIZE = Nat.blt a (CHUNK_SIZE - 1) from by
        rw [show CHUNK_SIZE = 16 from rfl]
        by_cases hc : a < 15
        · rw [Nat.blt_eq.mpr (show a + 1 < 16 by omega), Nat.blt_eq.mpr hc]
        · have h1 : ¬ Nat.blt (a + 1) 16 = true :=
            fun h => absurd (Nat.blt_eq.mp h) (by omega)
          have h2 : ¬ Nat.blt a 15 = true :=
            fun h => absurd (Nat.blt_eq.mp h) (by omega)
          rw [Bool.not_eq_true] at h1 h2
          rw [h1, h2]]
    | negSucc a =>
      have ha : a = 0 := by
        rw [Int.negSucc_eq] at hlo
        omega
      subst ha
      simp only [xvec, addv, qvec, inBounds3, ltN]
      rw [show Int.negSucc 0 + Int.ofNat 1 = Int.ofNat 0 from rfl,
        show (Int.ofNat ui + Int.ofNat 0) = Int.ofNat ui from rfl,
        show (Int.ofNat vi + Int.ofNat 0) = Int.ofNat vi from rfl]
      simp [hu, hv]
      decide

end Voxel

namespace Voxel

theorem maskB_eq (g : Grid) (axis : Nat) (xa : Int) (ui vi : Nat)
    (h3 : axis < 3) (hlo : -1 ≤ xa) (hui : ui < CHUNK_SIZE)
    (hvi : vi < CHUNK_SIZE) :
    maskB g axis xa ui vi =
      (if solidAt g (addv (xvec axis xa ui vi) (qvec axis)) &&
          !solidAt g (xvec axis xa ui vi) then
        some (g (block_pos_to_index
          (addv (xvec axis xa ui vi) (qvec axis)).1.toNat
          (addv (xvec axis xa ui vi) (qvec axis)).2.1.toNat
          (addv (xvec axis xa ui vi) (qvec axis)).2.2.toNat))
      else none) := by
  simp only [maskB]
  cases hlt : ltN xa (CHUNK_SIZE - 1)
  · have hsB : solidAt g (addv (xvec axis xa ui vi) (qvec axis)) = false := by
      rw [solidAt, inBounds3_addv_q axis xa ui vi hlo hui hvi, hlt]
      simp
    simp [hlt, hsB]
  · have hsB : solidAt g (addv (xvec axis xa ui vi) (qvec axis)) =
        (g (block_pos_to_index
          (addv (xvec axis xa ui vi) (qvec axis)).1.toNat
          (addv (xvec axis xa ui vi) (qvec axis)).2.1.toNat
          (addv (xvec axis xa ui vi) (qvec axis)).2.2.toNat) != 0) := by
      rw [solidAt, inBounds3_addv_q axis xa ui vi hlo hui hvi, hlt]
      simp
    interval_cases axis
    · rw [show (sideOfNat (0 + 3)).getD Side.NORTH = Side.SOUTH from rfl,
        is_face_visible_eq_not_solid]
      have hoff : sideOffset Side.SOUTH
          ((addv (xvec 0 xa ui vi) (qvec 0)).1,
           (addv (xvec 0 xa ui vi) (qvec 0)).2.1,
           (addv (xvec 0 xa ui vi) (qvec 0)).2.2) = xvec 0 xa ui vi := by
        simp [xvec, sideOffset, addv, qvec]
      rw [hoff, hsB]
      cases hA : solidAt g (xvec 0 xa ui vi) <;>
        cases hid : g (block_pos_to_index
          (addv (xvec 0 xa ui vi) (qvec 0)).1.toNat
          (addv (xvec 0 xa ui vi) (qvec 0)).2.1.toNat
          (addv (xvec 0 xa ui vi) (qvec 0)).2.2.toNat) == 0 <;>
        simp [hid, bne]
    · rw [show (sideOfNat (1 + 3)).getD Side.NORTH = Side.BOTTOM from rfl,
        is_face_visible_eq_not_solid]
      have hoff : sideOffset Side.BOTTOM
          ((addv (xvec 1 xa ui vi) (qvec 1)).1,
           (addv (xvec 1 xa ui vi) (qvec 1)).2.1,
           (addv (xvec 1 xa ui vi) (qvec 1)).2.2) = xvec 1 xa ui vi := by
        simp [xvec, sideOffset, addv, qvec]
      rw [hoff, hsB]
      cases hA : solidAt g (xvec 1 xa ui vi) <;>
        cases hid : g (block_pos_to_index
          (addv (xvec 1 xa ui vi) (qvec 1)).1.toNat
          (addv (xvec 1 xa ui vi) (qvec 1)).2.1.toNat
          (addv (xvec 1 xa ui vi) (qvec 1)).2.2.toNat) == 0 <;>
        simp [hid, bne]
    · rw [show (sideOfNat (2 + 3)).getD Side.NORTH = Side.WEST from rfl,
        is_face_visible_eq_not_solid]
      have hoff : sideOffset Side.WEST
          ((addv (xvec 2 xa ui vi) (qvec 2)).1,
           (addv (xvec 2 xa ui vi) (qvec 2)).2.1,
           (addv (xvec 2 xa ui vi) (qvec 2)).2.2) = xvec 2 xa ui vi := by
        simp [xvec, sideOffset, addv, qvec]
      rw [hoff, hsB]
      cases hA : solidAt g (xvec 2 xa ui vi) <;>
        cases hid : g (block_pos_to_index
          (addv (xvec 2 xa ui vi) (qvec 2)).1.toNat
          (addv (xvec 2 xa ui vi) (qvec 2)).2.1.toNat
          (addv (xvec 2 xa ui vi) (qvec 2)).2.2.toNat) == 0 <;>
        simp [hid, bne]

end Voxel

/-- C8: the sweep mask of Chunk::mesh records a face between the cell at
x[axis] = xa and its axis neighbour at xa + 1 exactly when one of the two
is solid and the other is not, where a coordinate outside the chunk bounds
counts as empty; and is_face_visible returns true whenever the stepped
neighbour coordinate is out of bounds, so boundary faces of solid voxels
are always emitted. -/
theorem face_in_mask_iff (g : Voxel.Grid) (axis : Nat) (xa : Int)
    (ui vi : Nat) (h3 : axis < 3) (hlo : -1 ≤ xa) (hhi : xa < 16)
    (hui : ui < Voxel.CHUNK_SIZE) (hvi : vi < Voxel.CHUNK_SIZE) :
    (Voxel.maskCell g axis xa ui vi ≠ none ↔
      Voxel.solidAt g (Voxel.xvec axis xa ui vi) ≠
        Voxel.solidAt g
          (Voxel.addv (Voxel.xvec axis xa ui vi) (Voxel.qvec axis))) ∧
    (∀ (x y z : Int) (side : Voxel.Side),
      Voxel.inBounds3 (Voxel.sideOffset side (x, y, z)) = false →
      Voxel.is_face_visible g x y z side = true) := by
  constructor
  · rw [Voxel.maskCell, Voxel.maskA_eq g axis xa ui vi h3 hhi hui hvi,
      Voxel.maskB_eq g axis xa ui vi h3 hlo hui hvi]
    cases hA : Voxel.solidAt g (Voxel.xvec axis xa ui vi) <;>
      cases hB : Voxel.solidAt g
        (Voxel.addv (Voxel.xvec axis xa ui vi) (Voxel.qvec axis)) <;>
      simp
  · intro x y z side hoob
    simp only [Voxel.is_face_visible, hoob]
    simp

/-- Witness for face_in_mask_iff: the boundary cell between the two solid
cube cells at x = 0 and x = 1 of the regression grid. -/
theorem face_in_mask_iff_witness :
    ((0 : Nat) < 3 ∧ (-1 : Int) ≤ 0 ∧ (0 : Int) < 16 ∧
      (0 : Nat) < Voxel.CHUNK_SIZE) ∧
    (Voxel.maskCell Voxel.cube2 0 0 0 0 ≠ none ↔
      Voxel.solidAt Voxel.cube2 (Voxel.xvec 0 0 0 0) ≠
        Voxel.solidAt Voxel.cube2
          (Voxel.addv (Voxel.xvec 0 0 0 0) (Voxel.qvec 0))) :=
  ⟨⟨by decide, by decide, by decide, by decide⟩,
   (face_in_mask_iff Voxel.cube2 0 0 0 0 (by decide) (by decide) (by decide)
      (by decide) (by decide)).1⟩

namespace Voxel

theorem idx_xvec (g : Grid) (axis c ui vi : Nat) :
    g (block_pos_to_index (xvec axis (Int.ofNat c) ui vi).1.toNat
      (xvec axis (Int.ofNat c) ui vi).2.1.toNat
      (xvec axis (Int.ofNat c) ui vi).2.2.toNat) =
    g (coordIdx axis c ui vi) := by
  rcases axis with _ | _ | n <;> rfl

theorem addv_xvec_q (axis c ui vi : Nat) :
    addv (xvec axis (Int.ofNat c) ui vi) (qvec axis) =
      xvec axis (Int.ofNat (c + 1)) ui vi := by
  rcases axis with _ | _ | n <;> rfl

theorem addv_xvec_q_neg (axis ui vi : Nat) :
    addv (xvec axis (Int.negSucc 0) ui vi) (qvec axis) =
      xvec axis (Int.ofNat 0) ui vi := by
  rcases axis with _ | _ | n <;> rfl

theorem solidAt_xvec (g : Grid) (axis c ui vi : Nat)
    (hui : ui < CHUNK_SIZE) (hvi : vi < CHUNK_SIZE) :
    solidAt g (xvec axis (Int.ofNat c) ui vi) =
      (Nat.blt c CHUNK_SIZE && (g (coordIdx axis c ui vi) != 0)) := by
  rw [solidAt, inBounds3_xvec axis (Int.ofNat c) ui vi hui hvi,
    idx_xvec g axis c ui vi]
  rfl

theorem solidAt_xvec_neg (g : Grid) (axis ui vi : Nat)
    (hui : ui < CHUNK_SIZE) (hvi : vi < CHUNK_SIZE) :
    solidAt g (xvec axis (Int.negSucc 0) ui vi) = false := by
  rw [solidAt, inBounds3_xvec axis (Int.negSucc 0) ui vi hui hvi]
  rfl

/-- The arithmetized mask cell used by the mesh embedding agrees with the
code of the faithful mask value on the whole sweep domain (slice boundary
s from 0 to CHUNK_SIZE, in-slice coordinates within bounds, axes 0 to 2;
the slice coordinate of the source is xa = s - 1). -/
theorem maskCellN_eq (g : Grid) (axis s ui vi : Nat)
    (h3 : axis < 3) (hs : s ≤ 16) (hui : ui < CHUNK_SIZE)
    (hvi : vi < CHUNK_SIZE) :
    maskCellN g axis s ui vi =
      maskCode (maskCell g axis (Int.ofNat s - Int.ofNat 1) ui vi) := by
  cases s with
  | zero =>
    rw [show Int.ofNat 0 - Int.ofNat 1 = Int.negSucc 0 from rfl]
    rw [maskCell, maskA_eq g axis _ ui vi h3 (by decide) hui hvi,
      maskB_eq g axis _ ui vi h3 (by decide) hui hvi,
      addv_xvec_q_neg, solidAt_xvec g axis 0 ui vi hui hvi,
      solidAt_xvec_neg g axis ui vi hui hvi, idx_xvec g axis 0 ui vi]
    cases hgB : g (coordIdx axis 0 ui vi) == 0 <;>
      simp [maskCellN, maskCode, hgB, bne, CHUNK_SIZE]
  | succ t =>
    have hxa : Int.ofNat (t + 1) - Int.ofNat 1 = Int.ofNat t := by
      rw [Int.ofNat_eq_natCast, Int.ofNat_eq_natCast, Int.ofNat_eq_natCast]
      omega
    rw [hxa, maskCell, maskA_eq g axis _ ui vi h3 (by
        rw [Int.ofNat_eq_natCast]
        have : t ≤ 15 := by omega
        omega) hui hvi,
      maskB_eq g axis _ ui vi h3 (by
        rw [Int.ofNat_eq_natCast]
        omega) hui hvi,
      addv_xvec_q, solidAt_xvec g axis t ui vi hui hvi,
      solidAt_xvec g axis (t + 1) ui vi hui hvi, idx_xvec g axis t ui vi,
      idx_xvec g axis (t + 1) ui vi]
    have hbt : Nat.blt t CHUNK_SIZE = true := Nat.blt_eq.mpr (by
      rw [show CHUNK_SIZE = 16 from rfl]; omega)
    by_cases hts : t + 1 < CHUNK_SIZE
    · have hbt1 : Nat.blt (t + 1) CHUNK_SIZE = true := Nat.blt_eq.mpr hts
      rw [hbt, hbt1]
      simp only [maskCellN, if_pos (show 0 < t + 1 by omega), if_pos hts,
        Nat.add_sub_cancel]
      cases hgA : g (coordIdx axis t ui vi) == 0 <;>
        cases hgB : g (coordIdx axis (t + 1) ui vi) == 0 <;>
        simp [maskCode, hgA, hgB, bne]
    · have hbt1 : Nat.blt (t + 1) CHUNK_SIZE = false := by
        rw [← Bool.not_eq_true, Nat.blt_eq]
        exact hts
      rw [hbt, hbt1]
      simp only [maskCellN, if_pos (show 0 < t + 1 by omega), if_neg hts,
        Nat.add_sub_cancel]
      cases hgA : g (coordIdx axis t ui vi) == 0 <;>
        simp [maskCode, hgA, bne]

end Voxel

namespace Memory

/-- Sum of the sizes of a block list. -/
theorem sizeSum_nil : sizeSum [] = 0 := rfl

theorem sizeSum_cons (b : Block) (bs : List Block) :
    sizeSum (b :: bs) = b.size + sizeSum bs := by
  simp [sizeSum]

theorem sizeSum_append (L R : List Block) :
    sizeSum (L ++ R) = sizeSum L + sizeSum R := by
  simp [sizeSum]

theorem tilesB_nil_iff (s e : Nat) : tilesB s [] e = true ↔ s = e := by
  simp [tilesB]

theorem tilesB_cons_iff (s e : Nat) (b : Block) (bs : List Block) :
    tilesB s (b :: bs) e = true ↔
      b.offset = s ∧ 0 < b.size ∧ tilesB (s + b.size) bs e = true := by
  simp only [tilesB, Bool.and_eq_true, beq_iff_eq, bne_iff_ne, ne_eq]
  constructor
  · rintro ⟨⟨h1, h2⟩, h3⟩
    exact ⟨h1, by omega, h3⟩
  · rintro ⟨h1, h2, h3⟩
    exact ⟨⟨h1, by omega⟩, h3⟩

theorem tilesB_sizeSum : ∀ (bs : List Block) (s e : Nat),
    tilesB s bs e = true → s + sizeSum bs = e := by
  intro bs
  induction bs with
  | nil => intro s e h; rw [tilesB_nil_iff] at h; simp [sizeSum_nil, h]
  | cons b bs ih =>
    intro s e h
    rw [tilesB_cons_iff] at h
    obtain ⟨-, -, h3⟩ := h
    have := ih (s + b.size) e h3
    rw [sizeSum_cons]
    omega

theorem tilesB_le : ∀ (bs : List Block) (s e : Nat),
    tilesB s bs e = true → s ≤ e := by
  intro bs s e h
  have := tilesB_sizeSum bs s e h
  omega

theorem tilesB_bounds : ∀ (bs : List Block) (s e : Nat),
    tilesB s bs e = true →
    ∀ b ∈ bs, s ≤ b.offset ∧ b.offset + b.size ≤ e ∧ 0 < b.size := by
  intro bs
  induction bs with
  | nil => intro s e _ b hb; cases hb
  | cons a bs ih =>
    intro s e h b hb
    rw [tilesB_cons_iff] at h
    obtain ⟨ha, hpos, h3⟩ := h
    rcases List.mem_cons.mp hb with rfl | hb
    · have := tilesB_le bs (s + b.size) e h3
      omega
    · have := ih (s + a.size) e h3 b hb
      omega

theorem tilesB_append_iff : ∀ (L R : List Block) (s e : Nat),
    tilesB s (L ++ R) e = true ↔
      tilesB s L (s + sizeSum L) = true ∧
        tilesB (s + sizeSum L) R e = true := by
  intro L
  induction L with
  | nil =>
    intro R s e
    simp [tilesB_nil_iff, sizeSum_nil]
  | cons b L ih =>
    intro R s e
    rw [List.cons_append, tilesB_cons_iff, tilesB_cons_iff, ih]
    rw [sizeSum_cons]
    constructor
    · rintro ⟨h1, h2, h3, h4⟩
      exact ⟨⟨h1, h2, by rwa [show s + (b.size + sizeSum L) = s + b.size + sizeSum L by omega]⟩,
        by rwa [show s + (b.size + sizeSum L) = s + b.size + sizeSum L by omega]⟩
    · rintro ⟨⟨h1, h2, h3⟩, h4⟩
      exact ⟨h1, h2, by rwa [show s + b.size + sizeSum L = s + (b.size + sizeSum L) by omega],
        by rwa [show s + b.size + sizeSum L = s + (b.size + sizeSum L) by omega]⟩

theorem add64_eq {a b : Nat} (h : a + b < W64) : add64 a b = a + b :=
  Nat.mod_eq_of_lt h

theorem freeBytes_nil : freeBytes [] = 0 := rfl

theorem freeBytes_cons (b : Block) (bs : List Block) :
    freeBytes (b :: bs) =
      (if b.is_free then b.size else 0) + freeBytes bs := by
  cases h : b.is_free <;> simp [freeBytes, List.filter, h]

theorem freeBytes_append (L R : List Block) :
    freeBytes (L ++ R) = freeBytes L + freeBytes R := by
  induction L with
  | nil => simp [freeBytes_nil]
  | cons b L ih => rw [List.cons_append, freeBytes_cons, freeBytes_cons, ih]; omega

end Memory

namespace Memory

theorem findIdxO_append_first {α : Type} (p : α → Bool) :
    ∀ (L : List α) (b : α) (R : List α),
      (∀ a ∈ L, p a = false) → p b = true →
      findIdxO p (L ++ b :: R) = some L.length := by
  intro L
  induction L with
  | nil => intro b R _ hb; simp [findIdxO, hb]
  | cons a L ih =>
    intro b R hL hb
    have ha : p a = false := hL a (by simp)
    rw [List.cons_append, findIdxO, ha]
    simp only [Bool.false_eq_true, if_false]
    rw [ih b R (fun x hx => hL x (by simp [hx])) hb]
    rfl

theorem findIdxO_some_decomp {α : Type} (p : α → Bool) :
    ∀ (bs : List α) (i : Nat), findIdxO p bs = some i →
      ∃ L b R, bs = L ++ b :: R ∧ L.length = i ∧ p b = true ∧
        ∀ a ∈ L, p a = false := by
  intro bs
  induction bs with
  | nil => intro i h; simp [findIdxO] at h
  | cons a bs ih =>
    intro i h
    rw [findIdxO] at h
    by_cases ha : p a = true
    · rw [if_pos ha] at h
      injection h with h
      exact ⟨[], a, bs, by simp, by simpa using h, ha, by simp⟩
    · rw [Bool.not_eq_true] at ha
      rw [ha] at h
      simp only [Bool.false_eq_true, if_false, Option.map_eq_some'] at h
      obtain ⟨j, hj, rfl⟩ := h
      obtain ⟨L, b, R, rfl, hlen, hb, hL⟩ := ih j hj
      refine ⟨a :: L, b, R, by simp, by simp [hlen], hb, ?_⟩
      intro x hx
      rcases List.mem_cons.mp hx with rfl | hx
      · exact ha
      · exact hL x hx

theorem getD_append_len (L : List Block) (b : Block) (R : List Block)
    (d : Block) : (L ++ b :: R).getD L.length d = b := by
  induction L with
  | nil => rfl
  | cons a L ih => simpa using ih

theorem set_append_len (L : List Block) (b x : Block) (R : List Block) :
    (L ++ b :: R).set L.length x = L ++ x :: R := by
  induction L with
  | nil => rfl
  | cons a L ih => simpa using ih

theorem eraseIdx_append_len (L : List Block) (b : Block) (R : List Block) :
    (L ++ b :: R).eraseIdx L.length = L ++ R := by
  induction L with
  | nil => rfl
  | cons a L ih => simpa using ih

theorem insertIdx_append_len (L : List Block) (x : Block) (R : List Block) :
    (L ++ R).insertIdx L.length x = L ++ x :: R := by
  induction L with
  | nil => rfl
  | cons a L ih => simpa using ih

theorem getD_append_len_succ (L : List Block) (b : Block) (R : List Block)
    (d : Block) :
    (L ++ b :: R).getD (L.length + 1) d = R.getD 0 d := by
  induction L with
  | nil => rfl
  | cons a L ih => simpa using ih

theorem length_append_cons (L : List Block) (b : Block) (R : List Block) :
    (L ++ b :: R).length = L.length + 1 + R.length := by
  simp
  omega

end Memory

namespace Memory

theorem sub64_eq {a b : Nat} (hba : b ≤ a) (ha : a < W64) : sub64 a b = a - b := by
  rw [sub64, show a + W64 - b = (a - b) + W64 by omega, Nat.add_mod_right]
  exact Nat.mod_eq_of_lt (by omega)

/-- Scan-and-split correctness of Chunk::alloc on a well-tiled chunk when
no alignment-padding underflow occurs: the chunk size, memory and tiling
are preserved, exactly the requested bytes move from free to allocated,
the returned block is the in-use block of the split, and it sits at a
definite position of the new block list. -/
theorem Chunk.alloc_spec {c : Chunk} {size align mti : Nat} {blk : Block}
    {c2 : Chunk}
    (htiles : tilesB 0 c.blocks c.size = true) (hW : c.size < W64)
    (hsize : 0 < size)
    (hNU : ∀ b ∈ c.blocks, b.is_free = true → b.offset % align ≠ 0 →
      align - b.offset % align ≤ b.size)
    (h : c.alloc size align mti = some (blk, c2)) :
    c2.size = c.size ∧ c2.memory = c.memory ∧
    tilesB 0 c2.blocks c.size = true ∧
    freeBytes c2.blocks + size = freeBytes c.blocks ∧
    blk.size = size ∧ blk.is_free = false ∧
    (∃ b0 ∈ c.blocks, blk.memory = b0.memory) ∧
    ∃ A B2, c2.blocks = A ++ blk :: B2 := by
  rw [Chunk.alloc] at h
  by_cases hcs : c.size < size
  · rw [if_pos hcs] at h; cases h
  rw [if_neg hcs] at h
  cases hfind : findIdxO (fun b => fitsB b size align) c.blocks with
  | none => rw [hfind] at h; cases h
  | some i =>
  rw [hfind] at h
  simp only [Option.some.injEq, Prod.mk.injEq] at h
  obtain ⟨hblk, hc2⟩ := h
  obtain ⟨L, b, R, hbs, hlen, hfits, hLf⟩ := findIdxO_some_decomp _ _ _ hfind
  have hgetD : c.blocks.getD i (Block.new 0 0 0 0) = b := by
    rw [hbs, ← hlen, getD_append_len]
  have hbmem : b ∈ c.blocks := by rw [hbs]; simp
  have hbb := tilesB_bounds _ 0 _ htiles b hbmem
  have hbsW : b.size < W64 := by omega
  rw [fitsB, Bool.and_eq_true, decide_eq_true_eq] at hfits
  obtain ⟨hbfree, hfit⟩ := hfits
  have hpadle : padOf b.offset align ≤ b.size := by
    rw [padOf]
    by_cases hmod : b.offset % align ≠ 0
    · rw [if_pos hmod]
      exact hNU b hbmem hbfree hmod
    · rw [if_neg hmod]; omega
  have heff : effSize b align = b.size - padOf b.offset align := by
    rw [effSize, padOf]
    by_cases hmod : b.offset % align ≠ 0
    · rw [if_pos hmod, if_pos hmod, sub64_eq (hNU b hbmem hbfree hmod) hbsW]
    · rw [if_neg hmod, if_neg hmod]; omega
  rw [heff] at hfit
  have hfit2 : padOf b.offset align + size ≤ b.size := by omega
  -- remove the wrapping from the arithmetic of the split
  have hadd1 : add64 size (padOf b.offset align) =
      size + padOf b.offset align := add64_eq (by omega)
  have hadd2 : add64 b.offset (add64 size (padOf b.offset align)) =
      b.offset + (size + padOf b.offset align) := by
    rw [hadd1]; exact add64_eq (by omega)
  have hadd3 : add64 b.offset (padOf b.offset align) =
      b.offset + padOf b.offset align := add64_eq (by omega)
  have hafter : sub64 b.size (add64 size (padOf b.offset align)) =
      b.size - (size + padOf b.offset align) := by
    rw [hadd1]; exact sub64_eq (by omega) hbsW
  rw [hgetD] at hblk hc2
  rw [hadd3] at hblk
  rw [hadd2, hadd3, hafter] at hc2
  -- the tiling of the original list around b
  rw [hbs, tilesB_append_iff, tilesB_cons_iff] at htiles
  obtain ⟨hL, hboff, hbpos, hR⟩ := htiles
  -- names for the split pieces
  set pad := padOf b.offset align with hpad
  set blkv : Block :=
    { b with is_free := false, size := size, offset := b.offset + pad }
    with hblkv
  set beforeB := Block.new c.memory mti b.offset pad with hbeforeB
  set afterB := Block.new c.memory mti (b.offset + (size + pad))
    (b.size - (size + pad)) with hafterB
  set mid : List Block := (if 0 < pad then [beforeB] else []) ++ blkv ::
    (if 0 < b.size - (size + pad) then [afterB] else []) with hmid
  have hblocks2 : c2.blocks = L ++ mid ++ R := by
    rw [← hc2, hmid]
    by_cases ha : 0 < b.size - (size + pad) <;>
      by_cases hb2 : 0 < pad <;>
      simp only [hbs, ha, hb2, if_true, if_false, ← hlen]
    · rw [show L ++ b :: R = (L ++ [b]) ++ R by simp,
        show L.length + 1 = (L ++ [b]).length by simp,
        insertIdx_append_len,
        show (L ++ [b]) ++ afterB :: R = L ++ b :: afterB :: R by simp,
        set_append_len, insertIdx_append_len]
      simp
    · rw [show L ++ b :: R = (L ++ [b]) ++ R by simp,
        show L.length + 1 = (L ++ [b]).length by simp,
        insertIdx_append_len,
        show (L ++ [b]) ++ afterB :: R = L ++ b :: afterB :: R by simp,
        set_append_len]
      simp
    · rw [set_append_len, insertIdx_append_len]
      simp
    · rw [set_append_len]
      simp
  have hmidtiles : tilesB b.offset mid (b.offset + b.size) = true := by
    rw [hmid]
    by_cases hb2 : 0 < pad <;>
      by_cases ha : 0 < b.size - (size + pad) <;>
      simp only [hb2, ha, if_true, if_false, List.nil_append,
        List.cons_append, List.singleton_append] <;>
      simp [tilesB, hbeforeB, hafterB, hblkv, Block.new] <;>
      omega
  have hmidsum : sizeSum mid = b.size := by
    rw [hmid]
    by_cases ha : 0 < b.size - (size + pad) <;>
      by_cases hb2 : 0 < pad <;>
      simp only [ha, hb2, if_true, if_false] <;>
      simp [sizeSum, hbeforeB, hafterB, hblkv, Block.new] <;>
      omega
  have hmidfree : freeBytes mid + size = b.size := by
    rw [hmid]
    by_cases ha : 0 < b.size - (size + pad) <;>
      by_cases hb2 : 0 < pad <;>
      simp only [ha, hb2, if_true, if_false] <;>
      simp [freeBytes_append, freeBytes_cons, freeBytes_nil, hbeforeB,
        hafterB, hblkv, Block.new] <;>
      omega
  have hc2size : c2.size = c.size := by rw [← hc2]
  have hc2mem : c2.memory = c.memory := by rw [← hc2]
  refine ⟨hc2size, hc2mem, ?_, ?_, by rw [← hblk], by rw [← hblk],
    ⟨b, hbmem, by rw [← hblk]⟩, ?_⟩
  · rw [hblocks2]
    refine (tilesB_append_iff _ _ _ _).mpr
      ⟨(tilesB_append_iff _ _ _ _).mpr ⟨hL, ?_⟩, ?_⟩
    · rw [sizeSum_append, hmidsum, ← hboff,
        show 0 + (sizeSum L + b.size) = b.offset + b.size by omega]
      exact hmidtiles
    · rw [sizeSum_append, hmidsum,
        show 0 + (sizeSum L + b.size) = 0 + sizeSum L + b.size by omega]
      exact hR
  · rw [hblocks2, freeBytes_append, freeBytes_append]
    have horig : freeBytes c.blocks =
        freeBytes L + b.size + freeBytes R := by
      rw [hbs, freeBytes_append, freeBytes_cons, hbfree]
      simp
      omega
    rw [horig]
    omega
  · refine ⟨L ++ (if 0 < pad then [beforeB] else []), (if 0 < b.size - (size + pad) then [afterB] else []) ++ R, ?_⟩
    rw [hblocks2, ← hblk, hmid]
    simp

end Memory

namespace Memory

theorem tiles_offsets_lt {A : List Block} {b : Block} {B : List Block}
    {e : Nat} (h : tilesB 0 (A ++ b :: B) e = true) :
    ∀ a ∈ A, a.offset < b.offset := by
  rw [tilesB_append_iff, tilesB_cons_iff] at h
  obtain ⟨hA, hboff, -, -⟩ := h
  intro a ha
  have := tilesB_bounds A 0 _ hA a ha
  omega

theorem tilesB_replace_one (seg : List Block) {L R : List Block}
    {x : Block} {e : Nat}
    (h : tilesB 0 (L ++ (seg ++ R)) e = true)
    (hoff : x.offset = 0 + sizeSum L)
    (hsz : x.size = sizeSum seg) (hpos : 0 < x.size) :
    tilesB 0 (L ++ x :: R) e = true := by
  rw [tilesB_append_iff] at h
  obtain ⟨hL, h2⟩ := h
  rw [tilesB_append_iff] at h2
  obtain ⟨hseg, hR⟩ := h2
  rw [tilesB_append_iff]
  refine ⟨hL, ?_⟩
  rw [tilesB_cons_iff]
  refine ⟨hoff, hpos, ?_⟩
  rw [hsz]
  exact hR

end Memory

namespace Memory

theorem getD_concat_pred (L : List Block) (p : Block) (R : List Block)
    (d : Block) : ((L ++ [p]) ++ R).getD ((L ++ [p]).length - 1) d = p := by
  induction L with
  | nil => rfl
  | cons a L ih => simpa using ih

theorem eraseIdx_concat_pred (L : List Block) (p : Block) (R : List Block) :
    ((L ++ [p]) ++ R).eraseIdx ((L ++ [p]).length - 1) = L ++ R := by
  induction L with
  | nil => rfl
  | cons a L ih => simpa using ih

theorem eraseIdx_append_len_succ (L : List Block) (b x : Block)
    (R : List Block) :
    (L ++ b :: x :: R).eraseIdx (L.length + 1) = L ++ b :: R := by
  induction L with
  | nil => rfl
  | cons a L ih => simpa using ih

end Memory

namespace Memory

/-- Chunk::free on an in-use block of a well-tiled chunk always succeeds,
keeps the chunk size and memory, preserves the tiling (coalescing merges
adjacent free neighbours into one block) and returns exactly the freed
bytes to the free total. -/
theorem Chunk.free_spec {c : Chunk} {blk : Block} {A B : List Block}
    (hbs : c.blocks = A ++ blk :: B)
    (htiles : tilesB 0 c.blocks c.size = true)
    (hW : c.size < W64)
    (hused : blk.is_free = false) :
    ∃ c3, c.free blk = some c3 ∧ c3.size = c.size ∧ c3.memory = c.memory ∧
      tilesB 0 c3.blocks c.size = true ∧
      freeBytes c3.blocks = freeBytes c.blocks + blk.size := by
  have htiles0 := htiles
  rw [hbs] at htiles0
  have hAlt : ∀ a ∈ A, a.offset < blk.offset := tiles_offsets_lt htiles0
  have hfind : findIdxO (fun b => b.offset == blk.offset) c.blocks
      = some A.length := by
    rw [hbs]
    apply findIdxO_append_first
    · intro a ha
      exact beq_eq_false_iff_ne.mpr (Nat.ne_of_lt (hAlt a ha))
    · exact beq_self_eq_true _
  have hblkb := tilesB_bounds _ 0 _ htiles0 blk (by simp)
  obtain ⟨hA, hBlkB⟩ := (tilesB_append_iff _ _ _ _).mp htiles0
  obtain ⟨hbo, hbpos, hB⟩ := (tilesB_cons_iff _ _ _ _).mp hBlkB
  simp only [Chunk.free, hfind]
  rw [hbs, getD_append_len, set_append_len, length_append_cons,
    getD_append_len_succ, getD_append_len]
  split_ifs with h1 h2 h3
  · -- forward merge, then backward merge
    rcases B with _ | ⟨n, B2⟩
    · exact absurd h1.1 (by simp)
    rw [List.getD_cons_zero] at h1
    have hn := h1.2
    obtain ⟨hno, hnpos, hB2⟩ := (tilesB_cons_iff _ _ _ _).mp hB
    have hnb := tilesB_bounds _ 0 _ htiles0 n (by simp)
    have haddn : add64 blk.size n.size = blk.size + n.size :=
      add64_eq (by omega)
    rw [set_append_len, eraseIdx_append_len_succ] at h2 ⊢
    rcases List.eq_nil_or_concat A with rfl | ⟨A2, p, rfl⟩
    · exact absurd h2.1 (by simp)
    simp only [List.concat_eq_append] at *
    rw [getD_concat_pred] at h2
    have hp := h2.2
    obtain ⟨hA2, hPonly⟩ := (tilesB_append_iff _ _ _ _).mp hA
    obtain ⟨hpo, hppos, -⟩ := (tilesB_cons_iff _ _ _ _).mp hPonly
    have hsum : sizeSum (A2 ++ [p]) = sizeSum A2 + p.size := by
      rw [sizeSum_append, sizeSum_cons, sizeSum_nil]
      omega
    have haddp : add64 (add64 blk.size n.size) p.size
        = blk.size + n.size + p.size := by
      rw [haddn]; exact add64_eq (by omega)
    rw [getD_append_len, getD_concat_pred, set_append_len,
      eraseIdx_concat_pred]
    refine ⟨_, rfl, rfl, rfl, ?_, ?_⟩
    · refine tilesB_replace_one [p, blk, n] ?_ ?_ ?_ ?_
      · rw [List.append_assoc, List.singleton_append] at htiles0
        exact htiles0
      · exact hpo
      · show add64 (add64 blk.size n.size) p.size = sizeSum [p, blk, n]
        rw [haddp, sizeSum_cons, sizeSum_cons, sizeSum_cons, sizeSum_nil]
        omega
      · show 0 < add64 (add64 blk.size n.size) p.size
        rw [haddp]; omega
    · simp [freeBytes_append, freeBytes_cons, freeBytes_nil, hused, hp,
        hn, haddp]
      omega
  · -- forward merge only
    rcases B with _ | ⟨n, B2⟩
    · exact absurd h1.1 (by simp)
    rw [List.getD_cons_zero] at h1
    have hn := h1.2
    obtain ⟨hno, hnpos, hB2⟩ := (tilesB_cons_iff _ _ _ _).mp hB
    have hnb := tilesB_bounds _ 0 _ htiles0 n (by simp)
    have haddn : add64 blk.size n.size = blk.size + n.size :=
      add64_eq (by omega)
    rw [set_append_len, eraseIdx_append_len_succ]
    refine ⟨_, rfl, rfl, rfl, ?_, ?_⟩
    · refine tilesB_replace_one [blk, n] htiles0 hbo ?_ ?_
      · show add64 blk.size n.size = sizeSum [blk, n]
        rw [haddn, sizeSum_cons, sizeSum_cons, sizeSum_nil]
        omega
      · show 0 < add64 blk.size n.size
        rw [haddn]; omega
    · simp [freeBytes_append, freeBytes_cons, freeBytes_nil, hused, hn,
        haddn]
      omega
  · -- backward merge only
    rcases List.eq_nil_or_concat A with rfl | ⟨A2, p, rfl⟩
    · exact absurd h3.1 (by simp)
    simp only [List.concat_eq_append] at *
    rw [getD_concat_pred] at h3
    have hp := h3.2
    obtain ⟨hA2, hPonly⟩ := (tilesB_append_iff _ _ _ _).mp hA
    obtain ⟨hpo, hppos, -⟩ := (tilesB_cons_iff _ _ _ _).mp hPonly
    have hsum : sizeSum (A2 ++ [p]) = sizeSum A2 + p.size := by
      rw [sizeSum_append, sizeSum_cons, sizeSum_nil]
      omega
    have haddp : add64 blk.size p.size = blk.size + p.size :=
      add64_eq (by omega)
    rw [getD_append_len, getD_concat_pred, set_append_len,
      eraseIdx_concat_pred]
    refine ⟨_, rfl, rfl, rfl, ?_, ?_⟩
    · refine tilesB_replace_one [p, blk] ?_ hpo ?_ ?_
      · rw [List.append_assoc, List.singleton_append] at htiles0
        exact htiles0
      · show add64 blk.size p.size = sizeSum [p, blk]
        rw [haddp, sizeSum_cons, sizeSum_cons, sizeSum_nil]
        omega
      · show 0 < add64 blk.size p.size
        rw [haddp]; omega
    · simp [freeBytes_append, freeBytes_cons, freeBytes_nil, hused, hp,
        haddp]
      omega
  · -- no merge: just mark the block free
    refine ⟨_, rfl, rfl, rfl, ?_, ?_⟩
    · exact tilesB_replace_one [blk] htiles0 hbo rfl hblkb.2.2
    · simp [freeBytes_append, freeBytes_cons, freeBytes_nil, hused]
      omega

end Memory

namespace Memory

/-- Both neighbours free: Chunk::free replaces the three blocks by a
single free block at the previous block's offset spanning the sum of the
three sizes. -/
theorem Chunk.free_merge_both {c : Chunk} {blk p n : Block} {L R : List Block}
    (hbs : c.blocks = (L ++ [p]) ++ blk :: n :: R)
    (htiles : tilesB 0 c.blocks c.size = true)
    (hW : c.size < W64)
    (hp : p.is_free = true) (hn : n.is_free = true)
    (hused : blk.is_free = false) :
    ∃ m, c.free blk = some { c with blocks := L ++ m :: R } ∧
      m.is_free = true ∧ m.offset = p.offset ∧
      m.size = p.size + blk.size + n.size ∧
      tilesB 0 (L ++ m :: R) c.size = true := by
  have htiles0 := htiles
  rw [hbs] at htiles0
  have hAlt : ∀ a ∈ L ++ [p], a.offset < blk.offset :=
    tiles_offsets_lt htiles0
  have hfind : findIdxO (fun b => b.offset == blk.offset) c.blocks
      = some (L ++ [p]).length := by
    rw [hbs]
    apply findIdxO_append_first
    · intro a ha
      exact beq_eq_false_iff_ne.mpr (Nat.ne_of_lt (hAlt a ha))
    · exact beq_self_eq_true _
  have hblkb := tilesB_bounds _ 0 _ htiles0 blk (by simp)
  obtain ⟨hA, hBlkB⟩ := (tilesB_append_iff _ _ _ _).mp htiles0
  obtain ⟨hbo, hbpos, hB⟩ := (tilesB_cons_iff _ _ _ _).mp hBlkB
  obtain ⟨hno, hnpos, hB2⟩ := (tilesB_cons_iff _ _ _ _).mp hB
  have hnb := tilesB_bounds _ 0 _ htiles0 n (by simp)
  obtain ⟨hA2, hPonly⟩ := (tilesB_append_iff _ _ _ _).mp hA
  obtain ⟨hpo, hppos, -⟩ := (tilesB_cons_iff _ _ _ _).mp hPonly
  have hsum : sizeSum (L ++ [p]) = sizeSum L + p.size := by
    rw [sizeSum_append, sizeSum_cons, sizeSum_nil]
    omega
  have haddn : add64 blk.size n.size = blk.size + n.size :=
    add64_eq (by omega)
  have haddp : add64 (add64 blk.size n.size) p.size
      = blk.size + n.size + p.size := by
    rw [haddn]; exact add64_eq (by omega)
  simp only [Chunk.free, hfind]
  rw [hbs]
  set A : List Block := L ++ [p] with hAdef
  rw [getD_append_len, set_append_len, getD_append_len_succ,
    getD_append_len]
  split_ifs with h1 h2
  · -- the real path: both merges fire
    rw [set_append_len, eraseIdx_append_len_succ, getD_append_len, hAdef,
      getD_concat_pred, set_append_len, eraseIdx_concat_pred]
    refine ⟨_, rfl, rfl, rfl, ?_, ?_⟩
    · show add64 (add64 blk.size n.size) p.size
        = p.size + blk.size + n.size
      rw [haddp]; omega
    · refine tilesB_replace_one [p, blk, n] ?_ hpo ?_ ?_
      · rw [List.append_assoc, List.singleton_append] at htiles0
        exact htiles0
      · show add64 (add64 blk.size n.size) p.size = sizeSum [p, blk, n]
        rw [haddp, sizeSum_cons, sizeSum_cons, sizeSum_cons, sizeSum_nil]
        omega
      · show 0 < add64 (add64 blk.size n.size) p.size
        rw [haddp]; omega
  · -- the previous block is free, so the backward merge cannot be skipped
    rw [set_append_len, eraseIdx_append_len_succ, hAdef,
      getD_concat_pred] at h2
    exact absurd ⟨by simp [hAdef], hp⟩ h2
  · -- the next block is free, so the forward merge cannot be skipped
    rw [List.getD_cons_zero] at h1
    refine absurd ⟨?_, hn⟩ h1
    simp only [List.length_append, List.length_cons]
    omega
  · rw [List.getD_cons_zero] at h1
    refine absurd ⟨?_, hn⟩ h1
    simp only [List.length_append, List.length_cons]
    omega

end Memory


namespace Memory

theorem getD_append_lenG {α : Type} (L : List α) (b : α) (R : List α)
    (d : α) : (L ++ b :: R).getD L.length d = b := by
  induction L with
  | nil => rfl
  | cons a L ih => simpa using ih

theorem set_append_lenG {α : Type} (L : List α) (b x : α) (R : List α) :
    (L ++ b :: R).set L.length x = L ++ x :: R := by
  induction L with
  | nil => rfl
  | cons a L ih => simpa using ih

/-- A successful chunk scan decomposes the chunk list at the first chunk
whose local allocation succeeds; only that chunk is replaced. -/
theorem allocScan_some_decomp :
    ∀ (cs : List Chunk) (size align mti : Nat) (blk : Block)
      (cs2 : List Chunk),
      allocScan size align mti cs = some (blk, cs2) →
      ∃ C c c2 D, cs = C ++ c :: D ∧ cs2 = C ++ c2 :: D ∧
        (∀ x ∈ C, x.alloc size align mti = none) ∧
        c.alloc size align mti = some (blk, c2) := by
  intro cs
  induction cs with
  | nil => intro size align mti blk cs2 h; simp [allocScan] at h
  | cons c cs ih =>
    intro size align mti blk cs2 h
    rw [allocScan] at h
    cases halloc : c.alloc size align mti with
    | some pr =>
      obtain ⟨blk1, c2⟩ := pr
      rw [halloc] at h
      simp only [Option.some.injEq, Prod.mk.injEq] at h
      obtain ⟨rfl, rfl⟩ := h
      exact ⟨[], c, c2, cs, rfl, rfl, by simp, halloc⟩
    | none =>
      rw [halloc] at h
      cases hrec : allocScan size align mti cs with
      | none => rw [hrec] at h; simp at h
      | some pr2 =>
        obtain ⟨blk2, cs3⟩ := pr2
        rw [hrec] at h
        simp only [Option.map_some', Option.some.injEq, Prod.mk.injEq] at h
        obtain ⟨rfl, rfl⟩ := h
        obtain ⟨C, c1, c2, D, rfl, rfl, hCnone, hc1⟩ :=
          ih size align mti blk2 cs3 hrec
        refine ⟨c :: C, c1, c2, D, rfl, rfl, ?_, hc1⟩
        intro x hx
        rcases List.mem_cons.mp hx with rfl | hx
        · exact halloc
        · exact hCnone x hx

end Memory

namespace Memory

/-- C3 (amended): when Pool::alloc satisfies the request from an existing
chunk (the scan over current chunks succeeds, so the pool does not grow),
Pool::alloc immediately followed by Pool::free of the returned block
restores the pool's total free byte count and leaves the number of chunks
unchanged, for a well-formed pool, a positive request size and a request
that triggers no alignment-padding underflow (the C1 bug) during the scan.
On the growth path the claim fails: the newly created chunk is never
removed again (see the counterexample). -/
theorem pool_round_trip_no_growth {p : Pool} {size align : Nat}
    {blk : Block} {p2 : Pool}
    (hWF : p.WF) (hsize : 0 < size)
    (hNU : ∀ c ∈ p.chunks, ∀ b ∈ c.blocks, b.is_free = true →
      b.offset % align ≠ 0 → align - b.offset % align ≤ b.size)
    (halloc : p.alloc size align = some (blk, p2))
    (hnogrow : (allocScan size align p.memory_type_index p.chunks).isSome
      = true) :
    ∃ p3, p2.free blk = some p3 ∧
      freeBytesPool p3 = freeBytesPool p ∧
      p3.chunks.length = p.chunks.length := by
  cases hsc : allocScan size align p.memory_type_index p.chunks with
  | none => rw [hsc] at hnogrow; simp at hnogrow
  | some pr =>
  obtain ⟨blk0, cs2⟩ := pr
  rw [Pool.alloc, hsc] at halloc
  simp only [Option.some.injEq, Prod.mk.injEq] at halloc
  obtain ⟨rfl, rfl⟩ := halloc
  obtain ⟨C, c, c2, D, hcs, rfl, hCnone, hc⟩ :=
    allocScan_some_decomp _ _ _ _ _ _ hsc
  have hcmem : c ∈ p.chunks := by rw [hcs]; simp
  obtain ⟨htilesC, hWc, hmemC⟩ := (hWF.1 c hcmem).1
  obtain ⟨hc2size, hc2mem, htiles2, hfree2, hblksize, hblkused,
    ⟨b0, hb0mem, hblkmem⟩, A, B, hc2blocks⟩ :=
    Chunk.alloc_spec htilesC hWc hsize (hNU c hcmem) hc
  have hblkmemC : blk0.memory = c.memory := by
    rw [hblkmem]; exact hmemC b0 hb0mem
  have hCne : ∀ x ∈ C, x.memory ≠ c.memory := by
    intro x hx heq
    have hnd := hWF.2
    rw [hcs, List.map_append, List.map_cons] at hnd
    have hdisj := (List.nodup_append.mp hnd).2.2
    refine hdisj (List.mem_map_of_mem _ hx) ?_
    rw [heq]
    exact List.mem_cons_self _ _
  have hfind2 : findIdxO (fun ch => ch.memory == blk0.memory)
      (C ++ c2 :: D) = some C.length := by
    apply findIdxO_append_first
    · intro x hx
      refine beq_eq_false_iff_ne.mpr ?_
      rw [hblkmemC]
      exact hCne x hx
    · rw [hblkmemC, hc2mem]
      exact beq_self_eq_true _
  have hW2 : c2.size < W64 := by rw [hc2size]; exact hWc
  have htiles2s : tilesB 0 c2.blocks c2.size = true := by
    rw [hc2size]; exact htiles2
  obtain ⟨c3, hfree3, hc3size, hc3mem, htiles3, hfree3b⟩ :=
    Chunk.free_spec hc2blocks htiles2s hW2 hblkused
  refine ⟨{ p with chunks := (C ++ c2 :: D).set C.length c3 }, ?_, ?_, ?_⟩
  · simp only [Pool.free, hfind2, getD_append_lenG, hfree3]
  · rw [set_append_lenG]
    simp only [freeBytesPool, hcs, List.map_append, List.map_cons,
      List.sum_append, List.sum_cons]
    have h1 : freeBytes c3.blocks = freeBytes c2.blocks + blk0.size :=
      hfree3b
    omega
  · rw [set_append_lenG]
    simp [hcs]

end Memory

namespace Memory

/-- Witness for C3 (amended): a pool with one 64-byte chunk serves a
16-byte request from the existing chunk; freeing the returned block
restores 64 free bytes and the single chunk. -/
theorem pool_round_trip_no_growth_witness :
    ∃ p3, Pool.free ⟨0, [⟨5, [⟨5, 0, 0, 16, false⟩, ⟨5, 0, 16, 48, true⟩],
        64⟩], 64, 6⟩ ⟨5, 0, 0, 16, false⟩ = some p3 ∧
      freeBytesPool p3 = freeBytesPool ⟨0, [Chunk.new 5 64 0], 64, 6⟩ ∧
      p3.chunks.length = 1 :=
  @pool_round_trip_no_growth ⟨0, [Chunk.new 5 64 0], 64, 6⟩ 16 1
    ⟨5, 0, 0, 16, false⟩
    ⟨0, [⟨5, [⟨5, 0, 0, 16, false⟩, ⟨5, 0, 16, 48, true⟩], 64⟩], 64, 6⟩
    ⟨by decide, by decide⟩ (by decide) (by decide) rfl rfl

end Memory

namespace Memory

/-- No free neighbour: Chunk::free only marks the block free. -/
theorem Chunk.free_mark_only {c : Chunk} {blk : Block} {L R : List Block}
    (hbs : c.blocks = L ++ blk :: R)
    (htiles : tilesB 0 c.blocks c.size = true)
    (hW : c.size < W64)
    (hused : blk.is_free = false)
    (hprev : ∀ q, L.getLast? = some q → q.is_free = false)
    (hnext : ∀ q, R.head? = some q → q.is_free = false) :
    c.free blk = some { c with blocks :=
        L ++ { blk with is_free := true } :: R } ∧
      tilesB 0 (L ++ { blk with is_free := true } :: R) c.size = true := by
  have htiles0 := htiles
  rw [hbs] at htiles0
  have hAlt : ∀ a ∈ L, a.offset < blk.offset := tiles_offsets_lt htiles0
  have hfind : findIdxO (fun b => b.offset == blk.offset) c.blocks
      = some L.length := by
    rw [hbs]
    apply findIdxO_append_first
    · intro a ha
      exact beq_eq_false_iff_ne.mpr (Nat.ne_of_lt (hAlt a ha))
    · exact beq_self_eq_true _
  have hblkb := tilesB_bounds _ 0 _ htiles0 blk (by simp)
  obtain ⟨hA, hBlkB⟩ := (tilesB_append_iff _ _ _ _).mp htiles0
  obtain ⟨hbo, hbpos, hB⟩ := (tilesB_cons_iff _ _ _ _).mp hBlkB
  simp only [Chunk.free, hfind]
  rw [hbs, getD_append_len, set_append_len, length_append_cons,
    getD_append_len_succ, getD_append_len]
  split_ifs with h1 h2 h3
  · -- a forward merge would need a free next block
    rcases R with _ | ⟨q, R2⟩
    · exact absurd h1.1 (by simp)
    rw [List.getD_cons_zero] at h1
    exact absurd h1.2 (by simp [hnext q rfl])
  · rcases R with _ | ⟨q, R2⟩
    · exact absurd h1.1 (by simp)
    rw [List.getD_cons_zero] at h1
    exact absurd h1.2 (by simp [hnext q rfl])
  · -- a backward merge would need a free previous block
    rcases List.eq_nil_or_concat L with rfl | ⟨L2, q, rfl⟩
    · exact absurd h3.1 (by simp)
    simp only [List.concat_eq_append] at *
    rw [getD_concat_pred] at h3
    exact absurd h3.2 (by simp [hprev q (by simp)])
  · -- neither merge fires
    refine ⟨rfl, ?_⟩
    exact tilesB_replace_one [blk] htiles0 hbo rfl hblkb.2.2

/-- Only the next block free: Chunk::free merges forward into one free
block at the freed offset spanning both sizes. -/
theorem Chunk.free_merge_next {c : Chunk} {blk n : Block}
    {L R : List Block}
    (hbs : c.blocks = L ++ blk :: n :: R)
    (htiles : tilesB 0 c.blocks c.size = true)
    (hW : c.size < W64)
    (hused : blk.is_free = false) (hn : n.is_free = true)
    (hprev : ∀ q, L.getLast? = some q → q.is_free = false) :
    ∃ m, c.free blk = some { c with blocks := L ++ m :: R } ∧
      m.is_free = true ∧ m.offset = blk.offset ∧
      m.size = blk.size + n.size ∧
      tilesB 0 (L ++ m :: R) c.size = true := by
  have htiles0 := htiles
  rw [hbs] at htiles0
  have hAlt : ∀ a ∈ L, a.offset < blk.offset := tiles_offsets_lt htiles0
  have hfind : findIdxO (fun b => b.offset == blk.offset) c.blocks
      = some L.length := by
    rw [hbs]
    apply findIdxO_append_first
    · intro a ha
      exact beq_eq_false_iff_ne.mpr (Nat.ne_of_lt (hAlt a ha))
    · exact beq_self_eq_true _
  have hblkb := tilesB_bounds _ 0 _ htiles0 blk (by simp)
  obtain ⟨hA, hBlkB⟩ := (tilesB_append_iff _ _ _ _).mp htiles0
  obtain ⟨hbo, hbpos, hB⟩ := (tilesB_cons_iff _ _ _ _).mp hBlkB
  obtain ⟨hno, hnpos, hB2⟩ := (tilesB_cons_iff _ _ _ _).mp hB
  have hnb := tilesB_bounds _ 0 _ htiles0 n (by simp)
  have haddn : add64 blk.size n.size = blk.size + n.size :=
    add64_eq (by omega)
  simp only [Chunk.free, hfind]
  rw [hbs, getD_append_len, set_append_len, length_append_cons,
    getD_append_len_succ, getD_append_len]
  split_ifs with h1 h2
  · -- a backward merge would need a free previous block
    rw [set_append_len, eraseIdx_append_len_succ] at h2
    rcases List.eq_nil_or_concat L with rfl | ⟨L2, q, rfl⟩
    · exact absurd h2.1 (by simp)
    simp only [List.concat_eq_append] at *
    rw [getD_concat_pred] at h2
    exact absurd h2.2 (by simp [hprev q (by simp)])
  · -- only the forward merge fires
    rw [set_append_len, eraseIdx_append_len_succ]
    refine ⟨_, rfl, rfl, rfl, ?_, ?_⟩
    · show add64 blk.size n.size = blk.size + n.size
      exact haddn
    · refine tilesB_replace_one [blk, n] htiles0 hbo ?_ ?_
      · show add64 blk.size n.size = sizeSum [blk, n]
        rw [haddn, sizeSum_cons, sizeSum_cons, sizeSum_nil]
        omega
      · show 0 < add64 blk.size n.size
        rw [haddn]; omega
  · rw [List.getD_cons_zero] at h1
    refine absurd ⟨?_, hn⟩ h1
    simp only [List.length_cons]
    omega
  · rw [List.getD_cons_zero] at h1
    refine absurd ⟨?_, hn⟩ h1
    simp only [List.length_cons]
    omega

end Memory

namespace Memory

/-- Only the previous block free: Chunk::free merges backward into the
previous block, one free block at the previous offset spanning both
sizes. -/
theorem Chunk.free_merge_prev {c : Chunk} {blk p : Block}
    {L R : List Block}
    (hbs : c.blocks = (L ++ [p]) ++ blk :: R)
    (htiles : tilesB 0 c.blocks c.size = true)
    (hW : c.size < W64)
    (hused : blk.is_free = false) (hp : p.is_free = true)
    (hnext : ∀ q, R.head? = some q → q.is_free = false) :
    ∃ m, c.free blk = some { c with blocks := L ++ m :: R } ∧
      m.is_free = true ∧ m.offset = p.offset ∧
      m.size = p.size + blk.size ∧
      tilesB 0 (L ++ m :: R) c.size = true := by
  have htiles0 := htiles
  rw [hbs] at htiles0
  have hAlt : ∀ a ∈ L ++ [p], a.offset < blk.offset :=
    tiles_offsets_lt htiles0
  have hfind : findIdxO (fun b => b.offset == blk.offset) c.blocks
      = some (L ++ [p]).length := by
    rw [hbs]
    apply findIdxO_append_first
    · intro a ha
      exact beq_eq_false_iff_ne.mpr (Nat.ne_of_lt (hAlt a ha))
    · exact beq_self_eq_true _
  have hblkb := tilesB_bounds _ 0 _ htiles0 blk (by simp)
  obtain ⟨hA, hBlkB⟩ := (tilesB_append_iff _ _ _ _).mp htiles0
  obtain ⟨hbo, hbpos, hB⟩ := (tilesB_cons_iff _ _ _ _).mp hBlkB
  obtain ⟨hA2, hPonly⟩ := (tilesB_append_iff _ _ _ _).mp hA
  obtain ⟨hpo, hppos, -⟩ := (tilesB_cons_iff _ _ _ _).mp hPonly
  have hsum : sizeSum (L ++ [p]) = sizeSum L + p.size := by
    rw [sizeSum_append, sizeSum_cons, sizeSum_nil]
    omega
  have haddp : add64 blk.size p.size = blk.size + p.size :=
    add64_eq (by omega)
  simp only [Chunk.free, hfind]
  rw [hbs]
  set A : List Block := L ++ [p] with hAdef
  rw [getD_append_len, set_append_len, getD_append_len_succ,
    getD_append_len]
  split_ifs with h1 h2 h3
  · -- a forward merge would need a free next block
    rcases R with _ | ⟨q, R2⟩
    · exact absurd h1.1 (by simp)
    rw [List.getD_cons_zero] at h1
    exact absurd h1.2 (by simp [hnext q rfl])
  · rcases R with _ | ⟨q, R2⟩
    · exact absurd h1.1 (by simp)
    rw [List.getD_cons_zero] at h1
    exact absurd h1.2 (by simp [hnext q rfl])
  · -- only the backward merge fires
    rw [getD_append_len, hAdef, getD_concat_pred, set_append_len,
      eraseIdx_concat_pred]
    refine ⟨_, rfl, rfl, rfl, ?_, ?_⟩
    · show add64 blk.size p.size = p.size + blk.size
      rw [haddp]; omega
    · refine tilesB_replace_one [p, blk] ?_ hpo ?_ ?_
      · rw [List.append_assoc, List.singleton_append] at htiles0
        exact htiles0
      · show add64 blk.size p.size = sizeSum [p, blk]
        rw [haddp, sizeSum_cons, sizeSum_cons, sizeSum_nil]
        omega
      · show 0 < add64 blk.size p.size
        rw [haddp]; omega
  · -- the previous block is free, so the backward merge cannot be skipped
    rw [hAdef, getD_concat_pred] at h3
    exact absurd ⟨by simp [hAdef], hp⟩ h3

end Memory
namespace Memory

/-- C2: Chunk::free on an in-use block of a well-tiled chunk marks it
free, merges it with the next block if that one is free, then merges it
into the previous block if that one is free: in every neighbour
configuration the freed range together with its adjacent free neighbours
ends up covered by exactly one free block spanning the combined range, at
the leftmost offset, and the partition tiling is preserved. -/
theorem chunk_free_coalesce :
    (∀ (c : Chunk) (blk p n : Block) (L R : List Block),
      c.blocks = (L ++ [p]) ++ blk :: n :: R →
      tilesB 0 c.blocks c.size = true → c.size < W64 →
      p.is_free = true → n.is_free = true → blk.is_free = false →
      ∃ m, c.free blk = some { c with blocks := L ++ m :: R } ∧
        m.is_free = true ∧ m.offset = p.offset ∧
        m.size = p.size + blk.size + n.size ∧
        tilesB 0 (L ++ m :: R) c.size = true) ∧
    (∀ (c : Chunk) (blk n : Block) (L R : List Block),
      c.blocks = L ++ blk :: n :: R →
      tilesB 0 c.blocks c.size = true → c.size < W64 →
      blk.is_free = false → n.is_free = true →
      (∀ q, L.getLast? = some q → q.is_free = false) →
      ∃ m, c.free blk = some { c with blocks := L ++ m :: R } ∧
        m.is_free = true ∧ m.offset = blk.offset ∧
        m.size = blk.size + n.size ∧
        tilesB 0 (L ++ m :: R) c.size = true) ∧
    (∀ (c : Chunk) (blk p : Block) (L R : List Block),
      c.blocks = (L ++ [p]) ++ blk :: R →
      tilesB 0 c.blocks c.size = true → c.size < W64 →
      blk.is_free = false → p.is_free = true →
      (∀ q, R.head? = some q → q.is_free = false) →
      ∃ m, c.free blk = some { c with blocks := L ++ m :: R } ∧
        m.is_free = true ∧ m.offset = p.offset ∧
        m.size = p.size + blk.size ∧
        tilesB 0 (L ++ m :: R) c.size = true) ∧
    (∀ (c : Chunk) (blk : Block) (L R : List Block),
      c.blocks = L ++ blk :: R →
      tilesB 0 c.blocks c.size = true → c.size < W64 →
      blk.is_free = false →
      (∀ q, L.getLast? = some q → q.is_free = false) →
      (∀ q, R.head? = some q → q.is_free = false) →
      c.free blk = some { c with blocks :=
          L ++ { blk with is_free := true } :: R } ∧
        tilesB 0 (L ++ { blk with is_free := true } :: R) c.size = true) :=
  ⟨fun c blk p n L R hbs htiles hW hp hn hused =>
      Chunk.free_merge_both hbs htiles hW hp hn hused,
    fun c blk n L R hbs htiles hW hused hn hprev =>
      Chunk.free_merge_next hbs htiles hW hused hn hprev,
    fun c blk p L R hbs htiles hW hused hp hnext =>
      Chunk.free_merge_prev hbs htiles hW hused hp hnext,
    fun c blk L R hbs htiles hW hused hprev hnext =>
      Chunk.free_mark_only hbs htiles hW hused hprev hnext⟩

/-- Witness for C2 at the spec's own test scenario: three adjacent
1000-byte blocks with the first and third already freed; freeing the
middle one yields a single free block spanning the whole 3000-byte range. -/
theorem chunk_free_coalesce_witness :
    ∃ m : Block, Chunk.free ⟨7, [⟨7, 0, 0, 1000, true⟩,
        ⟨7, 0, 1000, 1000, false⟩, ⟨7, 0, 2000, 1000, true⟩], 3000⟩
        ⟨7, 0, 1000, 1000, false⟩ = some ⟨7, [m], 3000⟩ ∧
      m.is_free = true ∧ m.offset = 0 ∧ m.size = 3000 ∧
      tilesB 0 [m] 3000 = true :=
  chunk_free_coalesce.1 ⟨7, [⟨7, 0, 0, 1000, true⟩,
      ⟨7, 0, 1000, 1000, false⟩, ⟨7, 0, 2000, 1000, true⟩], 3000⟩
    ⟨7, 0, 1000, 1000, false⟩ ⟨7, 0, 0, 1000, true⟩
    ⟨7, 0, 2000, 1000, true⟩ [] [] rfl (by decide) (by decide) rfl rfl rfl

end Memory
